import Mathlib

/-!
Shallow embedding of the hour-bundling core of the three-bells application
(src/api/index.js), together with the referential behaviour recorded in the
Prisma migrations (Log.rmpId has ON DELETE SET NULL towards Rmp).

Numbers are modelled as exact rationals; `cleanNum` is the program's
round-to-2-decimals helper (`Math.round(n * 100) / 100`).  Timestamps are
modelled as integer epoch milliseconds; a calendar date is a day index and
`T12:00:00` of a date is `day * 86400000 + 43200000`.  UUIDs are modelled as
naturals drawn from a fresh-id counter.
-/

set_option maxRecDepth 40000

namespace ThreeBells

/-- The rounding helper from src/api/index.js line 203:
`const cleanNum = (n) => Math.round(n * 100) / 100`.
JavaScript `Math.round` is `⌊x + 1/2⌋`, which is Mathlib's `round` on ℚ. -/
def cleanNum (n : ℚ) : ℚ := ((round (n * 100) : ℤ) : ℚ) / 100

/-- A rational that is already rounded to 2 decimals, i.e. a fixed point of
`cleanNum`. -/
abbrev Clean (q : ℚ) : Prop := cleanNum q = q

/-- A row of the `Log` table: one training-time record. `rmpId = none` means
unbundled. The `end` column is written `«end»`. -/
structure Log where
  id : ℕ
  userId : ℕ
  hours : ℚ
  start : ℤ
  «end» : ℤ
  note : Option String
  rmpId : Option ℕ
deriving Repr, DecidableEq

/-- The `status` column of the `Rmp` table (default `submitted`). -/
inductive RmpStatus where
  | submitted
  | paid
deriving Repr, DecidableEq

/-- A row of the `Rmp` table: one filed bundle of 3.0 hours. -/
structure Rmp where
  id : ℕ
  userId : ℕ
  filedDate : ℤ
  status : RmpStatus
  notes : Option String
deriving Repr, DecidableEq

/-- The database state: the `Log` and `Rmp` tables plus a fresh-id counter
standing in for UUID generation. -/
structure DB where
  logs : List Log
  rmps : List Rmp
  nextId : ℕ
deriving Repr, DecidableEq

/-- Stable insertion of a log into a list ordered by `start` ascending:
the new element goes after every element whose `start` is ≤ its own, so
insertion order is preserved among equal `start` values. -/
def insertByStart (x : Log) : List Log → List Log
  | [] => [x]
  | y :: ys => if y.start ≤ x.start then y :: insertByStart x ys else x :: y :: ys

/-- The store's `orderBy: { start: "asc" }`, as a stable sort (tie-break by
insertion order). -/
def sortByStart (l : List Log) : List Log :=
  l.foldl (fun acc x => insertByStart x acc) []

/-- The store's fetch of a user's unbundled logs:
`findMany({ where: { userId, rmpId: null } })`. -/
def unbundledOf (db : DB) (u : ℕ) : List Log :=
  db.logs.filter (fun l => decide (l.userId = u ∧ l.rmpId = none))

/-- Transaction primitive `tx.log.update({ where: { id }, data: { rmpId } })`. -/
def logUpdateRmpId (db : DB) (id rid : ℕ) : DB :=
  { db with logs := db.logs.map (fun l => if l.id = id then { l with rmpId := some rid } else l) }

/-- Transaction primitive
`tx.log.update({ where: { id }, data: { hours, rmpId } })` (the split write). -/
def logUpdateHoursRmp (db : DB) (id : ℕ) (h : ℚ) (rid : ℕ) : DB :=
  { db with logs := db.logs.map (fun l => if l.id = id then { l with hours := h, rmpId := some rid } else l) }

/-- Transaction primitive `tx.log.update({ where: { id }, data: { hours } })`
(the consolidation merge write). -/
def logUpdateHours (db : DB) (id : ℕ) (h : ℚ) : DB :=
  { db with logs := db.logs.map (fun l => if l.id = id then { l with hours := h } else l) }

/-- Transaction primitive `tx.log.delete({ where: { id } })`. -/
def logDeleteById (db : DB) (id : ℕ) : DB :=
  { db with logs := db.logs.filter (fun l => decide (l.id ≠ id)) }

/-- Transaction primitive `tx.log.create({ data: { userId, hours, start, end, note } })`
(a new unbundled row with a fresh id). -/
def logCreate (db : DB) (u : ℕ) (h : ℚ) (s e : ℤ) (note : Option String) : DB :=
  { db with logs := db.logs ++ [⟨db.nextId, u, h, s, e, note, none⟩], nextId := db.nextId + 1 }

/-- The parsed output of `getTimes`. -/
structure TimesData where
  hours : ℚ
  start : ℤ
  «end» : ℤ
  note : Option String
deriving Repr, DecidableEq

/-- A request body for add/update, after the out-of-scope string parsing:
`workDate` is the validated calendar date as a day index (`isValidDate` has
passed), `startTime`/`endTime` are parsed `HH:MM` pairs (`none` when the field
is absent or empty), `manualHours` is the parsed number (`none` when the field
is absent or falsy). -/
structure TimesBody where
  workDate : ℤ
  startTime : Option (ℕ × ℕ)
  endTime : Option (ℕ × ℕ)
  manualHours : Option ℚ
  note : Option String
deriving Repr, DecidableEq

/-- Epoch milliseconds of `workDate T HH:MM:00`. -/
def timeMs (d : ℤ) (t : ℕ × ℕ) : ℤ := d * 86400000 + ((t.1 * 60 + t.2 : ℕ) : ℤ) * 60000

/-- Epoch milliseconds of `workDate T12:00:00`, the timestamp of a
manual-hours entry. -/
def noonMs (d : ℤ) : ℤ := d * 86400000 + 43200000

/-- The `isValidTime` check on an already-parsed `HH:MM` pair
(regex `([01]\d|2[0-3]):([0-5]\d)`). -/
def isValidTimeHM (t : ℕ × ℕ) : Prop := t.1 ≤ 23 ∧ t.2 ≤ 59

instance (t : ℕ × ℕ) : Decidable (isValidTimeHM t) :=
  inferInstanceAs (Decidable (_ ∧ _))

/-- The note processing `note?.trim()?.slice(0, 500) || null` from `getTimes`. -/
def processNote (note : Option String) : Option String :=
  match note with
  | none => none
  | some s =>
    let t := s.trim.take 500
    if t = "" then none else some t

/-- The `getTimes` helper from src/api/index.js lines 1567-1611 (the date
grammar check on `workDate` happens in the out-of-scope string parsing). -/
def getTimes (body : TimesBody) : Except String TimesData :=
  let processedNote := processNote body.note
  match body.manualHours with
  | some mh =>
    if ¬ (0 ≤ mh ∧ mh ≤ 24) then
      .error "Invalid manual hours (must be between 0 and 24)"
    else
      .ok ⟨cleanNum mh, noonMs body.workDate, noonMs body.workDate, processedNote⟩
  | none =>
    match body.startTime, body.endTime with
    | some st, some et =>
      if ¬ (isValidTimeHM st ∧ isValidTimeHM et) then
        .error "Invalid time format (must be HH:MM)"
      else
        let start := timeMs body.workDate st
        let e0 := timeMs body.workDate et
        let e1 := if e0 < start then e0 + 86400000 else e0
        let hours := cleanNum (((e1 - start : ℤ) : ℚ) / 3600000)
        if hours < 0 ∨ hours > 24 then
          .error "Invalid time range (must be between 0 and 24 hours)"
        else
          .ok ⟨hours, start, e1, processedNote⟩
    | _, _ => .error "Both start and end times are required"

/-- The `POST /api/add` handler: validate the body and create an unbundled
log for the acting user. -/
def addLog (db : DB) (u : ℕ) (body : TimesBody) : Except String DB :=
  match getTimes body with
  | .error e => .error e
  | .ok d =>
    .ok { db with
          logs := db.logs ++ [⟨db.nextId, u, d.hours, d.start, d.«end», d.note, none⟩],
          nextId := db.nextId + 1 }

/-- The `POST /api/update/:id` handler:
`updateMany({ where: { id, userId, rmpId: null }, data })`; the second
component is `result.count` (0 is reported as "Log entry not found or locked"). -/
def updateLog (db : DB) (u : ℕ) (id : ℕ) (body : TimesBody) : Except String (DB × ℕ) :=
  match getTimes body with
  | .error e => .error e
  | .ok d =>
    let count := (db.logs.filter (fun l => decide (l.id = id ∧ l.userId = u ∧ l.rmpId = none))).length
    .ok ({ db with
           logs := db.logs.map (fun l =>
             if l.id = id ∧ l.userId = u ∧ l.rmpId = none then
               { l with hours := d.hours, start := d.start, «end» := d.«end», note := d.note }
             else l) },
         count)

/-- The `POST /api/delete/:id` handler:
`deleteMany({ where: { id, userId, rmpId: null } })`; the second component is
`result.count` (0 is reported as "Log entry not found or locked"). -/
def deleteLog (db : DB) (u : ℕ) (id : ℕ) : DB × ℕ :=
  let count := (db.logs.filter (fun l => decide (l.id = id ∧ l.userId = u ∧ l.rmpId = none))).length
  ({ db with logs := db.logs.filter (fun l => decide (¬ (l.id = id ∧ l.userId = u ∧ l.rmpId = none))) },
   count)

/-- The first pass of `POST /api/submit-unit` (lines 1690-1698): collect the
notes of the logs that will be bundled, re-deriving `needed` from the same
snapshot; `if (log.note)` is JavaScript truthiness, so empty notes are
skipped. -/
def collectNotes (needed : ℚ) : List Log → List String
  | [] => []
  | log :: rest =>
    if needed ≤ 0 then []
    else
      let tail := collectNotes
        (if log.hours ≤ needed then cleanNum (needed - log.hours) else 0) rest
      match log.note with
      | some n => if n = "" then tail else n :: tail
      | none => tail

/-- The allocation loop of `POST /api/submit-unit` (lines 1704-1724): consume
logs from the snapshot until `needed` is exhausted; a boundary log is split,
with the leftover hours written to a brand-new unbundled log carrying the
original `start`, `end` and `note`. -/
def allocLoop (db : DB) (rid u : ℕ) (needed : ℚ) : List Log → DB
  | [] => db
  | log :: rest =>
    if needed ≤ 0 then db
    else if log.hours ≤ needed then
      allocLoop (logUpdateRmpId db log.id rid) rid u (cleanNum (needed - log.hours)) rest
    else
      allocLoop
        (logCreate (logUpdateHoursRmp db log.id needed rid) u
          (cleanNum (log.hours - needed)) log.start log.«end» log.note)
        rid u 0 rest

/-- The `POST /api/submit-unit` handler (lines 1665-1732): fetch the user's
unbundled logs ordered by `start`, and when their raw sum is at least 3,
create one `Rmp` (with the bullet-joined notes) and run the allocation loop;
otherwise do nothing. -/
def submitUnit (db : DB) (u : ℕ) (filedDate : ℤ) : DB :=
  let earned := sortByStart (unbundledOf db u)
  let totalHours := earned.foldl (fun s l => s + l.hours) (0 : ℚ)
  if 3 ≤ totalHours then
    let bundledNotes := collectNotes 3 earned
    let notes :=
      if bundledNotes.length > 0 then
        some (String.intercalate "\n" (bundledNotes.map (fun n => "• " ++ n)))
      else none
    let rid := db.nextId
    let db1 := { db with
                 rmps := db.rmps ++ [⟨rid, u, filedDate, .submitted, notes⟩],
                 nextId := db.nextId + 1 }
    allocLoop db1 rid u 3 earned
  else db

/-- The notes value assembled by `POST /api/submit-unit` before creating the
Rmp (bullet-joined collected notes, or null when none were collected). -/
def submitNotes (db : DB) (u : ℕ) : Option String :=
  if (collectNotes 3 (sortByStart (unbundledOf db u))).length > 0 then
    some (String.intercalate "\n"
      ((collectNotes 3 (sortByStart (unbundledOf db u))).map (fun n => "• " ++ n)))
  else none

/-- The `POST /api/rmp/toggle-paid/:id` handler: after the ownership check,
flip the status between `paid` and `submitted`. -/
def togglePaid (db : DB) (u : ℕ) (id : ℕ) : DB :=
  match db.rmps.find? (fun r => decide (r.id = id)) with
  | none => db
  | some rmp =>
    if rmp.userId ≠ u then db
    else
      { db with rmps := db.rmps.map (fun r =>
          if r.id = rmp.id then
            { r with status := if rmp.status = .paid then .submitted else .paid }
          else r) }

/-- The referential action of `tx.rmp.delete`: the migration declares
`FOREIGN KEY ("rmpId") REFERENCES "Rmp"("id") ON DELETE SET NULL`, so the
deleted bundle's logs revert to unbundled. -/
def setNullRmp (db : DB) (rid : ℕ) : DB :=
  { db with logs := db.logs.map (fun l =>
      if l.rmpId = some rid then { l with rmpId := none } else l) }

/-- The consolidation scan of `POST /api/rmp/delete/:id` (lines 1795-1807) on
the in-memory `logs` array, with the database writes threaded through.  After
a merge the scan re-checks the same position (`i--`), but the in-memory record
`a` keeps its original `hours`, so a further merge into the same record adds
to the stale value.  The fuel argument is the initial array length; each step
shortens the array, so the fuel never runs out. -/
def applyMergeFuel (db : DB) : ℕ → List Log → DB
  | _, [] => db
  | _, [_] => db
  | 0, _ :: _ :: _ => db
  | fuel + 1, a :: b :: rest =>
    if a.start = b.start ∧ a.«end» = b.«end» then
      applyMergeFuel (logDeleteById (logUpdateHours db a.id (cleanNum (a.hours + b.hours))) b.id)
        fuel (a :: rest)
    else
      applyMergeFuel db fuel (b :: rest)

/-- The `POST /api/rmp/delete/:id` handler (lines 1767-1814): ownership check,
delete the bundle (its logs revert to unbundled via ON DELETE SET NULL), then
run the consolidation scan over the user's unbundled logs ordered by `start`. -/
def rmpDelete (db : DB) (u : ℕ) (id : ℕ) : DB :=
  match db.rmps.find? (fun r => decide (r.id = id)) with
  | none => db
  | some rmp =>
    if rmp.userId ≠ u then db
    else
      let db1 := setNullRmp
        { db with rmps := db.rmps.filter (fun r => decide (r.id ≠ id)) } id
      let logs := sortByStart (unbundledOf db1 u)
      applyMergeFuel db1 logs.length logs

/-- Sum of `hours` over the logs pointing at a given bundle. -/
def bundleHours (db : DB) (rid : ℕ) : ℚ :=
  ((db.logs.filter (fun l => decide (l.rmpId = some rid))).map Log.hours).sum

/-- A user's logs, in table order. -/
def logsOf (db : DB) (u : ℕ) : List Log :=
  db.logs.filter (fun l => decide (l.userId = u))

/-- A user's bundles, in table order. -/
def rmpsOf (db : DB) (u : ℕ) : List Rmp :=
  db.rmps.filter (fun r => decide (r.userId = u))

/-- Sum of `hours` over all of a user's logs, bundled and unbundled. -/
def userHours (db : DB) (u : ℕ) : ℚ := ((logsOf db u).map Log.hours).sum

/-- Sum of `hours` over a user's unbundled logs (the balance the threshold
check compares to 3). -/
def unbundledSum (db : DB) (u : ℕ) : ℚ := ((unbundledOf db u).map Log.hours).sum

/-- Well-formedness of a database state: ids are below the fresh-id counter
and are unique per table, and bundle references point below the counter. -/
def WF (db : DB) : Prop :=
  (∀ l ∈ db.logs, l.id < db.nextId) ∧
  (∀ l ∈ db.logs, ∀ r ∈ l.rmpId, r < db.nextId) ∧
  (∀ r ∈ db.rmps, r.id < db.nextId) ∧
  (db.logs.map Log.id).Nodup ∧
  (db.rmps.map Rmp.id).Nodup

/-- The data-model constraint on stored hours that every write path
re-establishes: non-negative and already rounded to 2 decimals. -/
def HoursOk (db : DB) : Prop := ∀ l ∈ db.logs, 0 ≤ l.hours ∧ Clean l.hours

/-- The full data-model constraint of the spec: hours non-negative, 2-decimal
rounded, and at most 24. -/
def HoursOk24 (db : DB) : Prop :=
  ∀ l ∈ db.logs, 0 ≤ l.hours ∧ Clean l.hours ∧ l.hours ≤ 24

instance (db : DB) : Decidable (HoursOk24 db) := by
  unfold HoursOk24
  infer_instance

instance (db : DB) : Decidable (WF db) := by
  unfold WF
  infer_instance

instance (db : DB) : Decidable (HoursOk db) := by
  unfold HoursOk
  infer_instance

instance {α β : Type} [DecidableEq α] [DecidableEq β] :
    DecidableEq (Except α β) := fun a b =>
  match a, b with
  | .error x, .error y =>
    if h : x = y then isTrue (by rw [h]) else
      isFalse (fun hc => h (by injection hc))
  | .error _, .ok _ => isFalse (fun hc => Except.noConfusion hc)
  | .ok _, .error _ => isFalse (fun hc => Except.noConfusion hc)
  | .ok x, .ok y =>
    if h : x = y then isTrue (by rw [h]) else
      isFalse (fun hc => h (by injection hc))

/-- The prefix of the snapshot consumed by the allocation loop: the logs that
are assigned to the bundle (the last one possibly only partially). -/
def consumed (needed : ℚ) : List Log → List Log
  | [] => []
  | log :: rest =>
    if needed ≤ 0 then []
    else log :: consumed (if log.hours ≤ needed then cleanNum (needed - log.hours) else 0) rest

/-- The value of `needed` after the allocation loop has walked the snapshot. -/
def neededAfter (needed : ℚ) : List Log → ℚ
  | [] => needed
  | log :: rest =>
    if needed ≤ 0 then needed
    else if log.hours ≤ needed then neededAfter (cleanNum (needed - log.hours)) rest
    else 0

/-- A note in the form collected by the notes pass: `none` when the note is
null or empty (JavaScript truthiness of `log.note`). -/
def nonEmptyNote (l : Log) : Option String :=
  match l.note with
  | none => none
  | some n => if n = "" then none else some n

/-- Example state: one user with a single unbundled manual entry of 5.0 hours
carrying a note. -/
def dbSplit : DB := ⟨[⟨0, 1, 5, noonMs 0, noonMs 0, some "orig", none⟩], [], 1⟩

/-- Example state: a manual 4-hour entry and a manual 2-hour entry logged on
the same work date (identical `start = end = noon`). -/
def dbFrag : DB :=
  ⟨[⟨0, 1, 4, noonMs 0, noonMs 0, none, none⟩,
    ⟨1, 1, 2, noonMs 0, noonMs 0, none, none⟩], [], 2⟩

/-- Example state: a manual 3-hour entry on one date and two manual 13-hour
entries on a later date. -/
def dbBig : DB :=
  ⟨[⟨0, 1, 3, noonMs 0, noonMs 0, none, none⟩,
    ⟨1, 1, 13, noonMs 1, noonMs 1, none, none⟩,
    ⟨2, 1, 13, noonMs 1, noonMs 1, none, none⟩], [], 3⟩

/-- Example state: two unbundled entries of 1.5 hours with identical
`start`/`end` (simulating a prior split). -/
def dbHalves : DB :=
  ⟨[⟨0, 1, 3/2, noonMs 0, noonMs 0, none, none⟩,
    ⟨1, 1, 3/2, noonMs 0, noonMs 0, none, none⟩], [], 2⟩

/-- Example state: a manual 3-hour entry on one date, then two independently
created manual 1-hour entries on the same later work date with distinct
notes. -/
def dbSameDate : DB :=
  ⟨[⟨0, 1, 3, noonMs 0, noonMs 0, none, none⟩,
    ⟨1, 1, 1, noonMs 1, noonMs 1, some "a", none⟩,
    ⟨2, 1, 1, noonMs 1, noonMs 1, some "b", none⟩], [], 3⟩

/-- Example state with two users: user 1 owns a locked log inside a bundle
and an unbundled log; user 2 owns an unbundled 3-hour log. -/
def dbPair : DB :=
  ⟨[⟨0, 1, 3, noonMs 0, noonMs 0, some "locked", some 10⟩,
    ⟨1, 1, 2, noonMs 1, noonMs 1, none, none⟩,
    ⟨2, 2, 3, noonMs 0, noonMs 0, none, none⟩],
   [⟨10, 1, 50, RmpStatus.submitted, none⟩], 11⟩

/-! ### Arithmetic facts about `cleanNum` -/

theorem clean_iff (q : ℚ) : Clean q ↔ ∃ z : ℤ, q = z / 100 := by
  constructor
  · intro h
    exact ⟨round (q * 100), h.symm⟩
  · rintro ⟨z, rfl⟩
    show cleanNum _ = _
    unfold cleanNum
    rw [div_mul_cancel₀ _ (by norm_num : (100 : ℚ) ≠ 0), round_intCast]

theorem clean_cleanNum (q : ℚ) : Clean (cleanNum q) :=
  (clean_iff _).mpr ⟨round (q * 100), rfl⟩

theorem clean_add {a b : ℚ} (ha : Clean a) (hb : Clean b) : Clean (a + b) := by
  rw [clean_iff] at ha hb ⊢
  obtain ⟨x, rfl⟩ := ha
  obtain ⟨y, rfl⟩ := hb
  exact ⟨x + y, by push_cast; ring⟩

theorem clean_sub {a b : ℚ} (ha : Clean a) (hb : Clean b) : Clean (a - b) := by
  rw [clean_iff] at ha hb ⊢
  obtain ⟨x, rfl⟩ := ha
  obtain ⟨y, rfl⟩ := hb
  exact ⟨x - y, by push_cast; ring⟩

theorem cleanNum_of_clean {a : ℚ} (ha : Clean a) : cleanNum a = a := ha

theorem cleanNum_sub_eq {a b : ℚ} (ha : Clean a) (hb : Clean b) :
    cleanNum (a - b) = a - b :=
  clean_sub ha hb

theorem cleanNum_add_eq {a b : ℚ} (ha : Clean a) (hb : Clean b) :
    cleanNum (a + b) = a + b :=
  clean_add ha hb

theorem cleanNum_mono {a b : ℚ} (h : a ≤ b) : cleanNum a ≤ cleanNum b := by
  unfold cleanNum
  have h100 : a * 100 ≤ b * 100 := by nlinarith
  have : round (a * 100) ≤ round (b * 100) := by
    rw [round_eq, round_eq]
    exact Int.floor_le_floor (by linarith)
  have : ((round (a * 100) : ℤ) : ℚ) ≤ ((round (b * 100) : ℤ) : ℚ) := by
    exact_mod_cast this
  linarith

theorem cleanNum_zero : cleanNum 0 = 0 := by
  unfold cleanNum
  rw [zero_mul, round_zero]
  norm_num

theorem cleanNum_nonneg {a : ℚ} (h : 0 ≤ a) : 0 ≤ cleanNum a := by
  have := cleanNum_mono h
  rwa [cleanNum_zero] at this

theorem clean_three : Clean 3 :=
  (clean_iff _).mpr ⟨300, by norm_num⟩

theorem clean_zero : Clean 0 :=
  (clean_iff _).mpr ⟨0, by norm_num⟩

/-! ### List facts: the ordered fetch is a permutation of the filtered table -/

theorem foldl_hours (l : List Log) (s : ℚ) :
    l.foldl (fun a x => a + x.hours) s = s + (l.map Log.hours).sum := by
  induction l generalizing s with
  | nil => simp
  | cons h t ih => simp [ih]; ring

theorem insertByStart_perm (x : Log) (l : List Log) :
    (insertByStart x l).Perm (x :: l) := by
  induction l with
  | nil => exact List.Perm.refl _
  | cons y ys ih =>
    unfold insertByStart
    by_cases h : y.start ≤ x.start
    · rw [if_pos h]
      exact (ih.cons y).trans (List.Perm.swap x y ys)
    · rw [if_neg h]

theorem sortByStart_aux_perm (l acc : List Log) :
    (l.foldl (fun acc x => insertByStart x acc) acc).Perm (acc ++ l) := by
  induction l generalizing acc with
  | nil => simp
  | cons x t ih =>
    have h1 : (x :: t).foldl (fun acc x => insertByStart x acc) acc
        = t.foldl (fun acc x => insertByStart x acc) (insertByStart x acc) := rfl
    rw [h1]
    refine (ih _).trans ?_
    refine (List.Perm.append_right t (insertByStart_perm x acc)).trans ?_
    exact List.perm_middle.symm

theorem sortByStart_perm (l : List Log) : (sortByStart l).Perm l := by
  simpa using sortByStart_aux_perm l []

theorem insertByStart_sorted {x : Log} {l : List Log}
    (h : l.Sorted (fun a b : Log => a.start ≤ b.start)) :
    (insertByStart x l).Sorted (fun a b : Log => a.start ≤ b.start) := by
  induction l with
  | nil => simp [insertByStart]
  | cons y ys ih =>
    rw [List.sorted_cons] at h
    obtain ⟨hy, hys⟩ := h
    unfold insertByStart
    by_cases hc : y.start ≤ x.start
    · rw [if_pos hc, List.sorted_cons]
      refine ⟨fun b hb => ?_, ih hys⟩
      rcases List.mem_cons.1 ((insertByStart_perm x ys).mem_iff.1 hb) with hb1 | hb1
      · rw [hb1]; exact hc
      · exact hy b hb1
    · rw [if_neg hc, List.sorted_cons]
      have hxy : x.start ≤ y.start := le_of_lt (lt_of_not_le hc)
      refine ⟨fun b hb => ?_, List.sorted_cons.2 ⟨hy, hys⟩⟩
      rcases List.mem_cons.1 hb with hb1 | hb1
      · rw [hb1]; exact hxy
      · exact le_trans hxy (hy b hb1)

theorem sortByStart_sorted (l : List Log) :
    (sortByStart l).Sorted (fun a b : Log => a.start ≤ b.start) := by
  have aux : ∀ (t acc : List Log),
      acc.Sorted (fun a b : Log => a.start ≤ b.start) →
      (t.foldl (fun acc x => insertByStart x acc) acc).Sorted
        (fun a b : Log => a.start ≤ b.start) := by
    intro t
    induction t with
    | nil => intro acc h; exact h
    | cons x t ih => intro acc h; exact ih _ (insertByStart_sorted h)
  exact aux l [] (by simp)

theorem eq_of_nodup_ids {ls : List Log} (hnd : (ls.map Log.id).Nodup)
    {a b : Log} (ha : a ∈ ls) (hb : b ∈ ls) (hid : a.id = b.id) : a = b := by
  induction ls with
  | nil => cases ha
  | cons x t ih =>
    rw [List.map_cons, List.nodup_cons] at hnd
    rcases List.mem_cons.1 ha with ha1 | ha1 <;> rcases List.mem_cons.1 hb with hb1 | hb1
    · rw [ha1, hb1]
    · exfalso
      apply hnd.1
      rw [← ha1, hid]
      exact List.mem_map_of_mem Log.id hb1
    · exfalso
      apply hnd.1
      rw [← hb1, ← hid]
      exact List.mem_map_of_mem Log.id ha1
    · exact ih hnd.2 ha1 hb1

/-! ### Generic facts about keyed updates on log lists -/

theorem map_update_eq_of_not_mem {ls : List Log} {i : ℕ} (g : Log → Log)
    (h : i ∉ ls.map Log.id) :
    ls.map (fun l => if l.id = i then g l else l) = ls := by
  induction ls with
  | nil => rfl
  | cons x t ih =>
    rw [List.map_cons, List.mem_cons] at h
    push_neg at h
    rw [List.map_cons, if_neg (fun hx => h.1 hx.symm), ih h.2]

theorem mem_map_update_of_ne {ls : List Log} {i : ℕ} (g : Log → Log)
    {l : Log} (hmem : l ∈ ls) (hne : l.id ≠ i) :
    l ∈ ls.map (fun l => if l.id = i then g l else l) := by
  have : l = (fun l => if l.id = i then g l else l) l := by simp [if_neg hne]
  rw [this]
  exact List.mem_map_of_mem _ hmem

theorem map_id_update {ls : List Log} {i : ℕ} (g : Log → Log)
    (hg : ∀ l, (g l).id = l.id) :
    (ls.map (fun l => if l.id = i then g l else l)).map Log.id = ls.map Log.id := by
  rw [List.map_map]
  refine List.map_congr_left (fun a _ => ?_)
  by_cases h : a.id = i <;> simp [h, hg]

theorem filter_map_invar {α : Type} (f : α → α) (p : α → Bool) (ls : List α)
    (h1 : ∀ a ∈ ls, p (f a) = p a) (h2 : ∀ a ∈ ls, p a = true → f a = a) :
    (ls.map f).filter p = ls.filter p := by
  induction ls with
  | nil => rfl
  | cons x t ih =>
    rw [List.map_cons]
    have hx := h1 x (List.mem_cons_self x t)
    have ihx := ih (fun a ha => h1 a (List.mem_cons_of_mem x ha))
      (fun a ha => h2 a (List.mem_cons_of_mem x ha))
    by_cases hp : p x = true
    · rw [List.filter_cons_of_pos (hx.trans hp), List.filter_cons_of_pos hp,
        h2 x (List.mem_cons_self x t) hp, ihx]
    · rw [List.filter_cons_of_neg (fun hc => hp (hx ▸ hc)),
        List.filter_cons_of_neg hp, ihx]

theorem filter_filter_of_imp {α : Type} (p q : α → Bool) (ls : List α)
    (h : ∀ a ∈ ls, p a = true → q a = true) :
    (ls.filter q).filter p = ls.filter p := by
  induction ls with
  | nil => rfl
  | cons x t ih =>
    have iht := ih (fun a ha => h a (List.mem_cons_of_mem x ha))
    by_cases hq : q x = true
    · rw [List.filter_cons_of_pos hq]
      by_cases hp : p x = true
      · rw [List.filter_cons_of_pos hp, List.filter_cons_of_pos hp, iht]
      · rw [List.filter_cons_of_neg hp, List.filter_cons_of_neg hp, iht]
    · have hp : ¬ p x = true := fun hc => hq (h x (List.mem_cons_self x t) hc)
      rw [List.filter_cons_of_neg hq, List.filter_cons_of_neg hp, iht]

/-! ### Equation lemmas for the recursive definitions -/

theorem allocLoop_nil (db : DB) (rid u : ℕ) (needed : ℚ) :
    allocLoop db rid u needed [] = db := rfl

theorem allocLoop_cons (db : DB) (rid u : ℕ) (needed : ℚ) (log : Log) (t : List Log) :
    allocLoop db rid u needed (log :: t) =
      if needed ≤ 0 then db
      else if log.hours ≤ needed then
        allocLoop (logUpdateRmpId db log.id rid) rid u (cleanNum (needed - log.hours)) t
      else
        allocLoop
          (logCreate (logUpdateHoursRmp db log.id needed rid) u
            (cleanNum (log.hours - needed)) log.start log.«end» log.note)
          rid u 0 t := rfl

theorem neededAfter_nil (needed : ℚ) : neededAfter needed [] = needed := rfl

theorem neededAfter_cons (needed : ℚ) (log : Log) (rest : List Log) :
    neededAfter needed (log :: rest) =
      if needed ≤ 0 then needed
      else if log.hours ≤ needed then neededAfter (cleanNum (needed - log.hours)) rest
      else 0 := rfl

theorem consumed_nil (needed : ℚ) : consumed needed [] = [] := rfl

theorem consumed_cons (needed : ℚ) (log : Log) (rest : List Log) :
    consumed needed (log :: rest) =
      if needed ≤ 0 then []
      else log :: consumed (if log.hours ≤ needed then cleanNum (needed - log.hours) else 0) rest := rfl

theorem collectNotes_nil (needed : ℚ) : collectNotes needed [] = [] := rfl

theorem collectNotes_cons (needed : ℚ) (log : Log) (rest : List Log) :
    collectNotes needed (log :: rest) =
      if needed ≤ 0 then []
      else
        let tail := collectNotes
          (if log.hours ≤ needed then cleanNum (needed - log.hours) else 0) rest
        match log.note with
        | some n => if n = "" then tail else n :: tail
        | none => tail := rfl

/-! ### The transaction primitives leave the other table and the counter alone -/

theorem logUpdateRmpId_rmps (db : DB) (i rid : ℕ) :
    (logUpdateRmpId db i rid).rmps = db.rmps := rfl

theorem logUpdateHoursRmp_rmps (db : DB) (i : ℕ) (h : ℚ) (rid : ℕ) :
    (logUpdateHoursRmp db i h rid).rmps = db.rmps := rfl

theorem logUpdateHours_rmps (db : DB) (i : ℕ) (h : ℚ) :
    (logUpdateHours db i h).rmps = db.rmps := rfl

theorem logDeleteById_rmps (db : DB) (i : ℕ) :
    (logDeleteById db i).rmps = db.rmps := rfl

theorem logCreate_rmps (db : DB) (u : ℕ) (h : ℚ) (s e : ℤ) (note : Option String) :
    (logCreate db u h s e note).rmps = db.rmps := rfl

theorem logUpdateRmpId_nextId (db : DB) (i rid : ℕ) :
    (logUpdateRmpId db i rid).nextId = db.nextId := rfl

theorem logUpdateHoursRmp_nextId (db : DB) (i : ℕ) (h : ℚ) (rid : ℕ) :
    (logUpdateHoursRmp db i h rid).nextId = db.nextId := rfl

theorem logUpdateHours_nextId (db : DB) (i : ℕ) (h : ℚ) :
    (logUpdateHours db i h).nextId = db.nextId := rfl

theorem logDeleteById_nextId (db : DB) (i : ℕ) :
    (logDeleteById db i).nextId = db.nextId := rfl

theorem logCreate_nextId (db : DB) (u : ℕ) (h : ℚ) (s e : ℤ) (note : Option String) :
    (logCreate db u h s e note).nextId = db.nextId + 1 := rfl

theorem logUpdateRmpId_map_id (db : DB) (i rid : ℕ) :
    (logUpdateRmpId db i rid).logs.map Log.id = db.logs.map Log.id :=
  map_id_update (fun l => { l with rmpId := some rid }) (fun _ => rfl)

theorem logUpdateHoursRmp_map_id (db : DB) (i : ℕ) (h : ℚ) (rid : ℕ) :
    (logUpdateHoursRmp db i h rid).logs.map Log.id = db.logs.map Log.id :=
  map_id_update (fun l => { l with hours := h, rmpId := some rid }) (fun _ => rfl)

theorem logUpdateHours_map_id (db : DB) (i : ℕ) (h : ℚ) :
    (logUpdateHours db i h).logs.map Log.id = db.logs.map Log.id :=
  map_id_update (fun l => { l with hours := h }) (fun _ => rfl)

/-- Effect on the bundle sum of a keyed write that assigns a formerly
unbundled log to the bundle `rid`. -/
theorem sum_rid_map_update (rid i : ℕ) (g : Log → Log) :
    ∀ (ls : List Log), (ls.map Log.id).Nodup →
    ∀ l0 ∈ ls, l0.id = i → l0.rmpId = none → (g l0).rmpId = some rid →
    (((ls.map (fun l => if l.id = i then g l else l)).filter
        (fun l => decide (l.rmpId = some rid))).map Log.hours).sum
      = ((ls.filter (fun l => decide (l.rmpId = some rid))).map Log.hours).sum
        + (g l0).hours := by
  intro ls
  induction ls with
  | nil => intro _ l0 h0; cases h0
  | cons x t ih =>
    intro hnd l0 hl0 hi h0 hg
    rw [List.map_cons, List.nodup_cons] at hnd
    rcases List.mem_cons.1 hl0 with hx | hx
    · subst hx
      have hkeep : (fun l => decide (l.rmpId = some rid)) (g l0) = true := by
        simp [hg]
      have hdrop : ¬ ((fun l => decide (l.rmpId = some rid)) l0 = true) := by
        simp [h0]
      rw [List.map_cons, if_pos hi]
      have e1 : (g l0 :: t.map (fun l => if l.id = i then g l else l)).filter
            (fun l => decide (l.rmpId = some rid))
          = g l0 :: (t.map (fun l => if l.id = i then g l else l)).filter
              (fun l => decide (l.rmpId = some rid)) :=
        List.filter_cons_of_pos hkeep
      have e2 : (l0 :: t).filter (fun l => decide (l.rmpId = some rid))
          = t.filter (fun l => decide (l.rmpId = some rid)) :=
        List.filter_cons_of_neg hdrop
      rw [e1, e2, map_update_eq_of_not_mem g (hi ▸ hnd.1)]
      rw [List.map_cons, List.sum_cons]
      ring
    · have hxi : x.id ≠ i := by
        intro hc
        exact hnd.1 (hc ▸ hi ▸ List.mem_map_of_mem Log.id hx)
      rw [List.map_cons, if_neg hxi]
      by_cases hp : x.rmpId = some rid
      · have hpb : (fun l => decide (l.rmpId = some rid)) x = true := by simp [hp]
        have e1 : (x :: t.map (fun l => if l.id = i then g l else l)).filter
              (fun l => decide (l.rmpId = some rid))
            = x :: (t.map (fun l => if l.id = i then g l else l)).filter
                (fun l => decide (l.rmpId = some rid)) :=
          List.filter_cons_of_pos hpb
        have e2 : (x :: t).filter (fun l => decide (l.rmpId = some rid))
            = x :: t.filter (fun l => decide (l.rmpId = some rid)) :=
          List.filter_cons_of_pos hpb
        rw [e1, e2]
        simp only [List.map_cons, List.sum_cons]
        rw [ih hnd.2 l0 hx hi h0 hg]
        ring
      · have hpb : ¬ ((fun l => decide (l.rmpId = some rid)) x = true) := by simp [hp]
        have e1 : (x :: t.map (fun l => if l.id = i then g l else l)).filter
              (fun l => decide (l.rmpId = some rid))
            = (t.map (fun l => if l.id = i then g l else l)).filter
                (fun l => decide (l.rmpId = some rid)) :=
          List.filter_cons_of_neg hpb
        have e2 : (x :: t).filter (fun l => decide (l.rmpId = some rid))
            = t.filter (fun l => decide (l.rmpId = some rid)) :=
          List.filter_cons_of_neg hpb
        rw [e1, e2]
        exact ih hnd.2 l0 hx hi h0 hg

theorem bundleHours_logUpdateRmpId {db : DB} {rid : ℕ} {log : Log}
    (hnd : (db.logs.map Log.id).Nodup) (hmem : log ∈ db.logs)
    (hunb : log.rmpId = none) :
    bundleHours (logUpdateRmpId db log.id rid) rid = bundleHours db rid + log.hours := by
  unfold bundleHours logUpdateRmpId
  exact sum_rid_map_update rid log.id (fun l => { l with rmpId := some rid })
    db.logs hnd log hmem rfl hunb rfl

theorem bundleHours_logUpdateHoursRmp {db : DB} {rid : ℕ} {log : Log} {h : ℚ}
    (hnd : (db.logs.map Log.id).Nodup) (hmem : log ∈ db.logs)
    (hunb : log.rmpId = none) :
    bundleHours (logUpdateHoursRmp db log.id h rid) rid = bundleHours db rid + h := by
  unfold bundleHours logUpdateHoursRmp
  exact sum_rid_map_update rid log.id (fun l => { l with hours := h, rmpId := some rid })
    db.logs hnd log hmem rfl hunb rfl

theorem bundleHours_logCreate (db : DB) (u : ℕ) (h : ℚ) (s e : ℤ)
    (note : Option String) (rid : ℕ) :
    bundleHours (logCreate db u h s e note) rid = bundleHours db rid := by
  unfold bundleHours logCreate
  rw [List.filter_append]
  simp

/-! ### The allocation loop -/

theorem allocLoop_rmps (rid u : ℕ) :
    ∀ (rest : List Log) (db : DB) (needed : ℚ),
    (allocLoop db rid u needed rest).rmps = db.rmps := by
  intro rest
  induction rest with
  | nil => intro db needed; rfl
  | cons log t ih =>
    intro db needed
    rw [allocLoop_cons]
    by_cases h0 : needed ≤ 0
    · rw [if_pos h0]
    · rw [if_neg h0]
      by_cases h1 : log.hours ≤ needed
      · rw [if_pos h1, ih, logUpdateRmpId_rmps]
      · rw [if_neg h1, ih, logCreate_rmps, logUpdateHoursRmp_rmps]

theorem allocLoop_nextId (rid u : ℕ) :
    ∀ (rest : List Log) (db : DB) (needed : ℚ),
    db.nextId ≤ (allocLoop db rid u needed rest).nextId := by
  intro rest
  induction rest with
  | nil => intro db needed; exact le_refl _
  | cons log t ih =>
    intro db needed
    rw [allocLoop_cons]
    by_cases h0 : needed ≤ 0
    · rw [if_pos h0]
    · rw [if_neg h0]
      by_cases h1 : log.hours ≤ needed
      · rw [if_pos h1]
        have h2 := ih (logUpdateRmpId db log.id rid) (cleanNum (needed - log.hours))
        rw [logUpdateRmpId_nextId] at h2
        exact h2
      · rw [if_neg h1]
        have h2 := ih (logCreate (logUpdateHoursRmp db log.id needed rid) u
          (cleanNum (log.hours - needed)) log.start log.«end» log.note) 0
        rw [logCreate_nextId, logUpdateHoursRmp_nextId] at h2
        exact le_trans (Nat.le_succ _) h2

theorem allocLoop_of_nonpos {db : DB} {rid u : ℕ} {needed : ℚ}
    (rest : List Log) (h : needed ≤ 0) :
    allocLoop db rid u needed rest = db := by
  cases rest with
  | nil => rfl
  | cons log t => rw [allocLoop_cons, if_pos h]

theorem allocLoop_bundleHours (rid u : ℕ) :
    ∀ (rest : List Log) (db : DB) (needed : ℚ),
    (db.logs.map Log.id).Nodup →
    (∀ l ∈ rest, l ∈ db.logs) →
    (∀ l ∈ rest, l.rmpId = none) →
    (rest.map Log.id).Nodup →
    Clean needed →
    (∀ l ∈ rest, Clean l.hours) →
    bundleHours (allocLoop db rid u needed rest) rid
      = bundleHours db rid + (needed - neededAfter needed rest) := by
  intro rest
  induction rest with
  | nil =>
    intro db needed _ _ _ _ _ _
    rw [allocLoop_nil, neededAfter_nil]
    ring
  | cons log t ih =>
    intro db needed hnd hmem hunb hrnd hcl hclt
    rw [List.map_cons, List.nodup_cons] at hrnd
    rw [allocLoop_cons, neededAfter_cons]
    by_cases h0 : needed ≤ 0
    · rw [if_pos h0, if_pos h0]
      ring
    · rw [if_neg h0, if_neg h0]
      by_cases h1 : log.hours ≤ needed
      · rw [if_pos h1, if_pos h1]
        have hlog := hmem log (List.mem_cons_self log t)
        have hmem2 : ∀ l ∈ t, l ∈ (logUpdateRmpId db log.id rid).logs := by
          intro l hl
          have hne : l.id ≠ log.id := by
            intro hc
            exact hrnd.1 (hc ▸ List.mem_map_of_mem Log.id hl)
          exact mem_map_update_of_ne _ (hmem l (List.mem_cons_of_mem log hl)) hne
        have hnd2 : ((logUpdateRmpId db log.id rid).logs.map Log.id).Nodup := by
          rw [logUpdateRmpId_map_id]
          exact hnd
        rw [ih _ _ hnd2 hmem2 (fun l hl => hunb l (List.mem_cons_of_mem log hl))
          hrnd.2 (clean_cleanNum _) (fun l hl => hclt l (List.mem_cons_of_mem log hl))]
        rw [bundleHours_logUpdateRmpId hnd hlog (hunb log (List.mem_cons_self log t))]
        rw [cleanNum_sub_eq hcl (hclt log (List.mem_cons_self log t))]
        ring
      · rw [if_neg h1, if_neg h1]
        rw [allocLoop_of_nonpos _ (le_refl 0), bundleHours_logCreate]
        have hlog := hmem log (List.mem_cons_self log t)
        rw [bundleHours_logUpdateHoursRmp hnd hlog (hunb log (List.mem_cons_self log t))]
        ring

theorem neededAfter_eq_zero :
    ∀ (rest : List Log) (needed : ℚ), 0 ≤ needed → Clean needed →
    (∀ l ∈ rest, 0 ≤ l.hours ∧ Clean l.hours) →
    needed ≤ (rest.map Log.hours).sum →
    neededAfter needed rest = 0 := by
  intro rest
  induction rest with
  | nil =>
    intro needed h0 _ _ hsum
    rw [neededAfter_nil]
    simp only [List.map_nil, List.sum_nil] at hsum
    linarith
  | cons log t ih =>
    intro needed h0 hcl hrest hsum
    rw [List.map_cons, List.sum_cons] at hsum
    rw [neededAfter_cons]
    by_cases hn0 : needed ≤ 0
    · rw [if_pos hn0]
      linarith
    · rw [if_neg hn0]
      by_cases h1 : log.hours ≤ needed
      · rw [if_pos h1]
        have hc := hrest log (List.mem_cons_self log t)
        rw [cleanNum_sub_eq hcl hc.2]
        exact ih _ (by linarith) (clean_sub hcl hc.2)
          (fun l hl => hrest l (List.mem_cons_of_mem log hl)) (by linarith)
      · rw [if_neg h1]

/-! ### Properties of the ordered unbundled fetch -/

theorem mem_unbundledOf {db : DB} {u : ℕ} {l : Log} (h : l ∈ unbundledOf db u) :
    l ∈ db.logs ∧ l.userId = u ∧ l.rmpId = none := by
  unfold unbundledOf at h
  rw [List.mem_filter] at h
  exact ⟨h.1, (of_decide_eq_true h.2).1, (of_decide_eq_true h.2).2⟩

theorem mem_earned {db : DB} {u : ℕ} {l : Log}
    (h : l ∈ sortByStart (unbundledOf db u)) :
    l ∈ db.logs ∧ l.userId = u ∧ l.rmpId = none :=
  mem_unbundledOf ((sortByStart_perm _).mem_iff.1 h)

theorem earned_map_id_nodup {db : DB} {u : ℕ}
    (hnd : (db.logs.map Log.id).Nodup) :
    ((sortByStart (unbundledOf db u)).map Log.id).Nodup := by
  have h1 : ((unbundledOf db u).map Log.id).Nodup :=
    hnd.sublist ((List.filter_sublist db.logs).map Log.id)
  exact ((sortByStart_perm (unbundledOf db u)).map Log.id).nodup_iff.2 h1

theorem earned_hours_sum (db : DB) (u : ℕ) :
    ((sortByStart (unbundledOf db u)).map Log.hours).sum = unbundledSum db u :=
  ((sortByStart_perm (unbundledOf db u)).map Log.hours).sum_eq

theorem earned_foldl (db : DB) (u : ℕ) :
    (sortByStart (unbundledOf db u)).foldl (fun s l => s + l.hours) (0 : ℚ)
      = unbundledSum db u := by
  rw [foldl_hours, zero_add]
  exact earned_hours_sum db u

theorem bundleHours_eq_zero {db : DB} {rid : ℕ}
    (h : ∀ l ∈ db.logs, ¬ l.rmpId = some rid) : bundleHours db rid = 0 := by
  unfold bundleHours
  rw [List.filter_eq_nil_iff.2 (fun a ha => by simp [h a ha])]
  rfl

theorem submitUnit_of_lt {db : DB} {u : ℕ} {fd : ℤ}
    (h : unbundledSum db u < 3) : submitUnit db u fd = db := by
  simp only [submitUnit]
  rw [earned_foldl]
  rw [if_neg (by linarith : ¬ (3 : ℚ) ≤ unbundledSum db u)]

/-- C1: for a well-formed state whose stored hours are all non-negative and
2-decimal rounded, when the user's unbundled hours total at least 3, a
bundle submission appends exactly one new Rmp (with the fresh id), and the sum
of `hours` over exactly the logs pointing at that new Rmp afterwards is
exactly 3. -/
theorem bundle_total_exact (db : DB) (u : ℕ) (fd : ℤ)
    (hwf : WF db) (hok : HoursOk db) (htot : 3 ≤ unbundledSum db u) :
    (∃ nts : Option String,
      (submitUnit db u fd).rmps
        = db.rmps ++ [⟨db.nextId, u, fd, RmpStatus.submitted, nts⟩])
    ∧ bundleHours (submitUnit db u fd) db.nextId = 3 := by
  obtain ⟨hidlt, hreflt, _, hnd, _⟩ := hwf
  have hcond : 3 ≤ (sortByStart (unbundledOf db u)).foldl (fun s l => s + l.hours) (0 : ℚ) := by
    rw [earned_foldl]
    exact htot
  have hsu : submitUnit db u fd
      = allocLoop
          { db with
            rmps := db.rmps ++ [⟨db.nextId, u, fd, RmpStatus.submitted,
              if (collectNotes 3 (sortByStart (unbundledOf db u))).length > 0 then
                some (String.intercalate "\n"
                  ((collectNotes 3 (sortByStart (unbundledOf db u))).map (fun n => "• " ++ n)))
              else none⟩],
            nextId := db.nextId + 1 }
          db.nextId u 3 (sortByStart (unbundledOf db u)) := by
    simp only [submitUnit]
    rw [if_pos hcond]
  set earned := sortByStart (unbundledOf db u) with hearned
  set nts0 : Option String :=
    (if (collectNotes 3 earned).length > 0 then
      some (String.intercalate "\n"
        ((collectNotes 3 earned).map (fun n => "• " ++ n)))
    else none) with hnts
  set db1 : DB := { db with
    rmps := db.rmps ++ [⟨db.nextId, u, fd, RmpStatus.submitted, nts0⟩],
    nextId := db.nextId + 1 } with hdb1
  have hmem : ∀ l ∈ earned, l ∈ db1.logs := fun l hl => (mem_earned hl).1
  have hunb : ∀ l ∈ earned, l.rmpId = none := fun l hl => (mem_earned hl).2.2
  have hrnd : (earned.map Log.id).Nodup := earned_map_id_nodup hnd
  have hnd1 : (db1.logs.map Log.id).Nodup := hnd
  have hclt : ∀ l ∈ earned, Clean l.hours :=
    fun l hl => (hok l (mem_earned hl).1).2
  have hsum := allocLoop_bundleHours db.nextId u earned db1 3 hnd1 hmem hunb hrnd
    clean_three hclt
  have hzero : bundleHours db1 db.nextId = 0 := by
    apply bundleHours_eq_zero
    intro l hl hcontra
    have := hreflt l hl db.nextId (by rw [hcontra]; rfl)
    exact lt_irrefl _ this
  have hna : neededAfter 3 earned = 0 := by
    apply neededAfter_eq_zero earned 3 (by norm_num) clean_three
    · intro l hl
      exact ⟨(hok l (mem_earned hl).1).1, (hok l (mem_earned hl).1).2⟩
    · rw [earned_hours_sum]
      exact htot
  constructor
  · refine ⟨nts0, ?_⟩
    rw [hsu, allocLoop_rmps]
  · rw [hsu, hsum, hzero, hna]
    ring

/-- Witness for C1 at the two-halves state. -/
theorem bundle_total_exact_witness :
    WF dbHalves ∧ HoursOk dbHalves ∧ 3 ≤ unbundledSum dbHalves 1 ∧
    ((∃ nts : Option String,
        (submitUnit dbHalves 1 100).rmps
          = dbHalves.rmps ++ [⟨dbHalves.nextId, 1, 100, RmpStatus.submitted, nts⟩])
      ∧ bundleHours (submitUnit dbHalves 1 100) dbHalves.nextId = 3) :=
  ⟨by with_unfolding_all decide, by with_unfolding_all decide, by with_unfolding_all decide,
    bundle_total_exact dbHalves 1 100 (by with_unfolding_all decide) (by with_unfolding_all decide) (by with_unfolding_all decide)⟩

/-- C5: when the user's unbundled hours sum below 3, the bundle submission is
a silent no-op: the state (logs and bundles alike) is returned unchanged. -/
theorem submit_below_threshold_noop (db : DB) (u : ℕ) (fd : ℤ)
    (h : unbundledSum db u < 3) : submitUnit db u fd = db :=
  submitUnit_of_lt h

/-- Witness for C5: user 1 of `dbPair` holds only 2 unbundled hours. -/
theorem submit_below_threshold_noop_witness :
    unbundledSum dbPair 1 < 3 ∧ submitUnit dbPair 1 0 = dbPair :=
  ⟨by with_unfolding_all decide, submit_below_threshold_noop dbPair 1 0 (by with_unfolding_all decide)⟩

/-- C3: when the current entry holds more hours than `needed`, the allocation
step writes `hours := needed` and the bundle id onto that entry and creates a
brand-new unbundled log with the leftover `cleanNum (hours - needed)` and the
original `start`/`end`/`note`; concretely, a single 5.0-hour entry submits
into a 3.0-hour bundled entry plus a new 2.0-hour unbundled copy. -/
theorem split_behavior (db : DB) (rid u : ℕ) (needed : ℚ) (log : Log)
    (rest : List Log) (hpos : 0 < needed) (hlt : needed < log.hours) :
    (allocLoop db rid u needed (log :: rest)
      = logCreate (logUpdateHoursRmp db log.id needed rid) u
          (cleanNum (log.hours - needed)) log.start log.«end» log.note)
    ∧ (submitUnit dbSplit 1 100).logs
        = [⟨0, 1, 3, noonMs 0, noonMs 0, some "orig", some 1⟩,
           ⟨2, 1, 2, noonMs 0, noonMs 0, some "orig", none⟩]
    ∧ (submitUnit dbSplit 1 100).rmps
        = [⟨1, 1, 100, RmpStatus.submitted, some "• orig"⟩] := by
  refine ⟨?_, by with_unfolding_all rfl, by with_unfolding_all rfl⟩
  rw [allocLoop_cons, if_neg (by linarith), if_neg (by linarith)]
  exact allocLoop_of_nonpos _ (le_refl 0)

/-- Witness for C3 at a concrete split. -/
theorem split_behavior_witness :
    (0 : ℚ) < 3 ∧ (3 : ℚ) < (⟨0, 1, 5, noonMs 0, noonMs 0, some "orig", none⟩ : Log).hours ∧
    ((allocLoop dbSplit 7 1 3 [⟨0, 1, 5, noonMs 0, noonMs 0, some "orig", none⟩]
        = logCreate
            (logUpdateHoursRmp dbSplit
              (⟨0, 1, 5, noonMs 0, noonMs 0, some "orig", none⟩ : Log).id 3 7) 1
            (cleanNum ((⟨0, 1, 5, noonMs 0, noonMs 0, some "orig", none⟩ : Log).hours - 3))
            (noonMs 0) (noonMs 0) (some "orig"))
      ∧ (submitUnit dbSplit 1 100).logs
          = [⟨0, 1, 3, noonMs 0, noonMs 0, some "orig", some 1⟩,
             ⟨2, 1, 2, noonMs 0, noonMs 0, some "orig", none⟩]
      ∧ (submitUnit dbSplit 1 100).rmps
          = [⟨1, 1, 100, RmpStatus.submitted, some "• orig"⟩]) :=
  ⟨by norm_num, by norm_num,
    split_behavior dbSplit 7 1 3 ⟨0, 1, 5, noonMs 0, noonMs 0, some "orig", none⟩ []
      (by norm_num) (by norm_num)⟩

/-- C2 at the failing input: submitting conserves the user total (6 hours),
but deleting the bundle drops it to 4 hours — the consolidation scan adds the
stale in-memory `a.hours` (3) rather than the freshly written value when a
third fragment merges, so 2 hours are lost. -/
theorem conservation_delete_bug :
    userHours dbFrag 1 = 6
    ∧ userHours (submitUnit dbFrag 1 100) 1 = 6
    ∧ userHours (rmpDelete (submitUnit dbFrag 1 100) 1 2) 1 = 4 := by
  refine ⟨by with_unfolding_all rfl, by with_unfolding_all rfl, by with_unfolding_all rfl⟩

/-- C4 at the failing input: after submit, three unbundled-able fragments of
3, 2 and 1 hours share one `start`/`end`; the delete-scan merges all three
into a single entry as claimed, but the re-scan adds the third fragment into
the first entry's stale hours, yielding 4 instead of the claimed 3+2+1 = 6. -/
theorem merge_rescan_stale :
    (submitUnit dbFrag 1 100).logs.map Log.hours = [3, 2, 1]
    ∧ (∀ l ∈ (submitUnit dbFrag 1 100).logs,
        l.start = noonMs 0 ∧ l.«end» = noonMs 0)
    ∧ (rmpDelete (submitUnit dbFrag 1 100) 1 2).logs.map Log.hours = [4] := by
  refine ⟨by with_unfolding_all rfl, by with_unfolding_all decide, by with_unfolding_all rfl⟩

/-- Every manual-hours body parses to `start = end =` noon of the work date. -/
theorem getTimes_manual (body : TimesBody) (mh : ℚ)
    (hmh : body.manualHours = some mh) :
    getTimes body
      = if ¬ (0 ≤ mh ∧ mh ≤ 24) then
          Except.error "Invalid manual hours (must be between 0 and 24)"
        else
          Except.ok ⟨cleanNum mh, noonMs body.workDate, noonMs body.workDate,
            processNote body.note⟩ := by
  simp only [getTimes]
  rw [hmh]

/-- C10: all successfully parsed manual entries of one work date carry the
identical timestamp pair `start = end = noon`, and deleting a bundle then
merges adjacent independently created manual entries of that date, summing
their hours and discarding the second entry's note. -/
theorem manual_same_date_merge
    (b1 b2 : TimesBody) (mh1 mh2 : ℚ) (d1 d2 : TimesData)
    (hm1 : b1.manualHours = some mh1) (hm2 : b2.manualHours = some mh2)
    (hwd : b1.workDate = b2.workDate)
    (hg1 : getTimes b1 = .ok d1) (hg2 : getTimes b2 = .ok d2) :
    (d1.start = d2.start ∧ d1.«end» = d2.«end» ∧ d1.start = d1.«end»)
    ∧ (rmpDelete (submitUnit dbSameDate 1 100) 1 3).logs
        = [⟨0, 1, 3, noonMs 0, noonMs 0, none, none⟩,
           ⟨1, 1, 2, noonMs 1, noonMs 1, some "a", none⟩] := by
  refine ⟨?_, by with_unfolding_all rfl⟩
  rw [getTimes_manual b1 mh1 hm1] at hg1
  rw [getTimes_manual b2 mh2 hm2] at hg2
  by_cases hv1 : ¬ (0 ≤ mh1 ∧ mh1 ≤ 24)
  · rw [if_pos hv1] at hg1
    cases hg1
  rw [if_neg hv1] at hg1
  by_cases hv2 : ¬ (0 ≤ mh2 ∧ mh2 ≤ 24)
  · rw [if_pos hv2] at hg2
    cases hg2
  rw [if_neg hv2] at hg2
  injection hg1 with h1
  injection hg2 with h2
  rw [← h1, ← h2, hwd]
  exact ⟨rfl, rfl, rfl⟩

/-- Witness for C10 at two concrete manual bodies of the same work date. -/
theorem manual_same_date_merge_witness :
    (⟨5, none, none, some 1, none⟩ : TimesBody).manualHours = some 1 ∧
    (⟨5, none, none, some 2, none⟩ : TimesBody).manualHours = some 2 ∧
    (⟨5, none, none, some 1, none⟩ : TimesBody).workDate
      = (⟨5, none, none, some 2, none⟩ : TimesBody).workDate ∧
    getTimes ⟨5, none, none, some 1, none⟩
      = .ok ⟨1, noonMs 5, noonMs 5, none⟩ ∧
    getTimes ⟨5, none, none, some 2, none⟩
      = .ok ⟨2, noonMs 5, noonMs 5, none⟩ ∧
    (((⟨1, noonMs 5, noonMs 5, none⟩ : TimesData).start
        = (⟨2, noonMs 5, noonMs 5, none⟩ : TimesData).start
      ∧ (⟨1, noonMs 5, noonMs 5, none⟩ : TimesData).«end»
          = (⟨2, noonMs 5, noonMs 5, none⟩ : TimesData).«end»
      ∧ (⟨1, noonMs 5, noonMs 5, none⟩ : TimesData).start
          = (⟨1, noonMs 5, noonMs 5, none⟩ : TimesData).«end»)
    ∧ (rmpDelete (submitUnit dbSameDate 1 100) 1 3).logs
        = [⟨0, 1, 3, noonMs 0, noonMs 0, none, none⟩,
           ⟨1, 1, 2, noonMs 1, noonMs 1, some "a", none⟩]) :=
  ⟨rfl, rfl, rfl, by with_unfolding_all rfl, by with_unfolding_all rfl,
    manual_same_date_merge ⟨5, none, none, some 1, none⟩
      ⟨5, none, none, some 2, none⟩ 1 2
      ⟨1, noonMs 5, noonMs 5, none⟩ ⟨2, noonMs 5, noonMs 5, none⟩
      rfl rfl rfl (by with_unfolding_all rfl) (by with_unfolding_all rfl)⟩

/-! ### Equation lemmas for the fallible handlers -/

theorem updateLog_err (db : DB) (u id : ℕ) (body : TimesBody) (e : String)
    (hg : getTimes body = .error e) :
    updateLog db u id body = .error e := by
  simp only [updateLog]
  rw [hg]

theorem updateLog_ok (db : DB) (u id : ℕ) (body : TimesBody) (d : TimesData)
    (hg : getTimes body = .ok d) :
    updateLog db u id body = .ok
      ({ db with logs := db.logs.map (fun l =>
          if l.id = id ∧ l.userId = u ∧ l.rmpId = none then
            { l with hours := d.hours, start := d.start, «end» := d.«end», note := d.note }
          else l) },
       (db.logs.filter (fun l =>
         decide (l.id = id ∧ l.userId = u ∧ l.rmpId = none))).length) := by
  simp only [updateLog]
  rw [hg]

theorem addLog_ok (db : DB) (u : ℕ) (body : TimesBody) (d : TimesData)
    (hg : getTimes body = .ok d) :
    addLog db u body = .ok
      { db with
        logs := db.logs ++ [⟨db.nextId, u, d.hours, d.start, d.«end», d.note, none⟩],
        nextId := db.nextId + 1 } := by
  simp only [addLog]
  rw [hg]

theorem togglePaid_logs (db : DB) (u i : ℕ) :
    (togglePaid db u i).logs = db.logs := by
  rcases hfind : db.rmps.find? (fun r => decide (r.id = i)) with _ | rmp
  · simp only [togglePaid, hfind]
  · simp only [togglePaid, hfind]
    by_cases hu : rmp.userId ≠ u
    · rw [if_pos hu]
    · rw [if_neg hu]

/-! ### The allocation loop never touches logs outside the fetched snapshot -/

theorem allocLoop_keep (rid u : ℕ) :
    ∀ (rest : List Log) (db : DB) (needed : ℚ) (l0 : Log),
    l0 ∈ db.logs →
    (∀ lg ∈ rest, l0.id ≠ lg.id) →
    l0 ∈ (allocLoop db rid u needed rest).logs := by
  intro rest
  induction rest with
  | nil => intro db needed l0 hmem _; exact hmem
  | cons log t ih =>
    intro db needed l0 hmem hne
    rw [allocLoop_cons]
    by_cases h0 : needed ≤ 0
    · rw [if_pos h0]; exact hmem
    · rw [if_neg h0]
      by_cases h1 : log.hours ≤ needed
      · rw [if_pos h1]
        refine ih _ _ l0 ?_ (fun lg hlg => hne lg (List.mem_cons_of_mem log hlg))
        exact mem_map_update_of_ne _ hmem (hne log (List.mem_cons_self log t))
      · rw [if_neg h1]
        refine ih _ _ l0 ?_ (fun lg hlg => hne lg (List.mem_cons_of_mem log hlg))
        refine List.mem_append_left _ ?_
        exact mem_map_update_of_ne _ hmem (hne log (List.mem_cons_self log t))

/-- C8: a locked log (non-null `bundleId`) cannot be touched: the direct
update reports count 0 and leaves the state unchanged, the direct delete
reports count 0 and leaves the state unchanged, a bundle submission leaves
the locked log in place unchanged, and a status toggle does not touch the
log table at all. -/
theorem locked_entry_immutable (db : DB) (u : ℕ) (fd : ℤ) (i : ℕ)
    (body : TimesBody) (l0 : Log) (r0 : ℕ)
    (hnd : (db.logs.map Log.id).Nodup)
    (hmem : l0 ∈ db.logs) (hlock : l0.rmpId = some r0) :
    (∀ db2 c, updateLog db u l0.id body = .ok (db2, c) → db2 = db ∧ c = 0)
    ∧ deleteLog db u l0.id = (db, 0)
    ∧ l0 ∈ (submitUnit db u fd).logs
    ∧ (togglePaid db u i).logs = db.logs := by
  have hnone : ∀ l ∈ db.logs, ¬ (l.id = l0.id ∧ l.userId = u ∧ l.rmpId = none) := by
    intro l hl hc
    have : l = l0 := eq_of_nodup_ids hnd hl hmem hc.1
    rw [this, hlock] at hc
    exact Option.noConfusion hc.2.2
  refine ⟨?_, ?_, ?_, togglePaid_logs db u i⟩
  · intro db2 c h
    rcases hgt : getTimes body with e | d
    · rw [updateLog_err db u l0.id body e hgt] at h
      exact Except.noConfusion h
    · rw [updateLog_ok db u l0.id body d hgt] at h
      injection h with h
      injection h with h1 h2
      have hmap : db.logs.map (fun l =>
          if l.id = l0.id ∧ l.userId = u ∧ l.rmpId = none then
            { l with hours := d.hours, start := d.start, «end» := d.«end», note := d.note }
          else l) = db.logs := by
        rw [List.map_congr_left (fun l hl => if_neg (hnone l hl))]
        exact List.map_id _
      have hcnt : (db.logs.filter (fun l =>
          decide (l.id = l0.id ∧ l.userId = u ∧ l.rmpId = none))) = [] :=
        List.filter_eq_nil_iff.2 (fun l hl => by simp [hnone l hl])
      constructor
      · rw [← h1, hmap]
      · rw [← h2, hcnt]
        rfl
  · simp only [deleteLog]
    rw [List.filter_eq_self.2 (fun l hl => by simp [hnone l hl]),
      List.filter_eq_nil_iff.2 (fun l hl => by simp [hnone l hl])]
    rfl
  · have hne : ∀ lg ∈ sortByStart (unbundledOf db u), l0.id ≠ lg.id := by
      intro lg hlg hc
      have h1 := mem_earned hlg
      have : l0 = lg := eq_of_nodup_ids hnd hmem h1.1 hc
      rw [this, h1.2.2] at hlock
      exact Option.noConfusion hlock
    by_cases hcond : 3 ≤ (sortByStart (unbundledOf db u)).foldl (fun s l => s + l.hours) (0 : ℚ)
    · have hsu : submitUnit db u fd
          = allocLoop
              { db with
                rmps := db.rmps ++ [⟨db.nextId, u, fd, RmpStatus.submitted,
                  if (collectNotes 3 (sortByStart (unbundledOf db u))).length > 0 then
                    some (String.intercalate "\n"
                      ((collectNotes 3 (sortByStart (unbundledOf db u))).map (fun n => "• " ++ n)))
                  else none⟩],
                nextId := db.nextId + 1 }
              db.nextId u 3 (sortByStart (unbundledOf db u)) := by
        simp only [submitUnit]
        rw [if_pos hcond]
      rw [hsu]
      exact allocLoop_keep _ _ _ _ _ _ hmem hne
    · have hsu : submitUnit db u fd = db := by
        simp only [submitUnit]
        rw [if_neg hcond]
      rw [hsu]
      exact hmem

/-- Witness for C8 at the locked log of `dbPair`. -/
theorem locked_entry_immutable_witness :
    ((dbPair.logs.map Log.id).Nodup
      ∧ (⟨0, 1, 3, noonMs 0, noonMs 0, some "locked", some 10⟩ : Log) ∈ dbPair.logs
      ∧ (⟨0, 1, 3, noonMs 0, noonMs 0, some "locked", some 10⟩ : Log).rmpId = some 10)
    ∧ ((∀ db2 c,
          updateLog dbPair 1 (⟨0, 1, 3, noonMs 0, noonMs 0, some "locked", some 10⟩ : Log).id
            ⟨3, none, none, some 1, none⟩ = .ok (db2, c) → db2 = dbPair ∧ c = 0)
        ∧ deleteLog dbPair 1 (⟨0, 1, 3, noonMs 0, noonMs 0, some "locked", some 10⟩ : Log).id
            = (dbPair, 0)
        ∧ (⟨0, 1, 3, noonMs 0, noonMs 0, some "locked", some 10⟩ : Log)
            ∈ (submitUnit dbPair 1 77).logs
        ∧ (togglePaid dbPair 1 10).logs = dbPair.logs) :=
  ⟨⟨by decide, by decide, rfl⟩,
    locked_entry_immutable dbPair 1 77 10 ⟨3, none, none, some 1, none⟩
      ⟨0, 1, 3, noonMs 0, noonMs 0, some "locked", some 10⟩ 10
      (by decide) (by decide) rfl⟩

/-! ### Keyed updates never touch another user's rows -/

theorem eq_of_nodup_key {α β : Type} (key : α → β) {ls : List α}
    (hnd : (ls.map key).Nodup) {a b : α} (ha : a ∈ ls) (hb : b ∈ ls)
    (hk : key a = key b) : a = b := by
  induction ls with
  | nil => cases ha
  | cons x t ih =>
    rw [List.map_cons, List.nodup_cons] at hnd
    rcases List.mem_cons.1 ha with ha1 | ha1 <;> rcases List.mem_cons.1 hb with hb1 | hb1
    · rw [ha1, hb1]
    · exfalso
      apply hnd.1
      rw [← ha1, hk]
      exact List.mem_map_of_mem key hb1
    · exfalso
      apply hnd.1
      rw [← hb1, ← hk]
      exact List.mem_map_of_mem key ha1
    · exact ih hnd.2 ha1 hb1

theorem mem_of_find?_rmp {rmps : List Rmp} {i : ℕ} {rmp : Rmp}
    (h : rmps.find? (fun r => decide (r.id = i)) = some rmp) :
    rmp ∈ rmps ∧ rmp.id = i := by
  have hp := @List.find?_some Rmp (fun r => decide (r.id = i)) rmp rmps h
  exact ⟨List.mem_of_find?_eq_some h, of_decide_eq_true hp⟩

theorem logsOf_map_keyed (ls : List Log) (v : ℕ) (g : Log → Log) (i : ℕ)
    (hgu : ∀ l, (g l).userId = l.userId)
    (hv : ∀ l ∈ ls, l.userId = v → l.id ≠ i) :
    (ls.map (fun l => if l.id = i then g l else l)).filter
      (fun l => decide (l.userId = v))
    = ls.filter (fun l => decide (l.userId = v)) := by
  refine filter_map_invar _ _ _ (fun a _ => ?_) (fun a ha hp => ?_)
  · by_cases h : a.id = i
    · simp [h, hgu]
    · simp [h]
  · exact if_neg (hv a ha (of_decide_eq_true hp))

theorem logsOf_filter_keyed (ls : List Log) (v : ℕ) (q : Log → Bool)
    (h : ∀ l ∈ ls, l.userId = v → q l = true) :
    (ls.filter q).filter (fun l => decide (l.userId = v))
    = ls.filter (fun l => decide (l.userId = v)) :=
  filter_filter_of_imp _ _ _ (fun a ha hp => h a ha (of_decide_eq_true hp))

theorem logsOf_append_new (ls : List Log) (v : ℕ) (x : Log)
    (hx : ¬ x.userId = v) :
    (ls ++ [x]).filter (fun l => decide (l.userId = v))
    = ls.filter (fun l => decide (l.userId = v)) := by
  rw [List.filter_append]
  simp [hx]

theorem map_update_preserves {ls : List Log} (g : Log → Log) (i : ℕ)
    (hgi : ∀ l, (g l).id = l.id) (hgu : ∀ l, (g l).userId = l.userId)
    {l' : Log} (h : l' ∈ ls.map (fun l => if l.id = i then g l else l)) :
    ∃ pre ∈ ls, l'.id = pre.id ∧ l'.userId = pre.userId := by
  obtain ⟨pre, hpre, hfl⟩ := List.mem_map.1 h
  refine ⟨pre, hpre, ?_⟩
  by_cases hc : pre.id = i
  · rw [← hfl, if_pos hc]
    exact ⟨hgi pre, hgu pre⟩
  · rw [← hfl, if_neg hc]
    exact ⟨rfl, rfl⟩

theorem allocLoop_logsOf (rid u v : ℕ) (hv : v ≠ u) :
    ∀ (rest : List Log) (db : DB) (needed : ℚ),
    (∀ lg ∈ rest, ∀ l' ∈ db.logs, l'.id = lg.id → l'.userId = u) →
    logsOf (allocLoop db rid u needed rest) v = logsOf db v := by
  intro rest
  induction rest with
  | nil => intro db needed _; rfl
  | cons log t ih =>
    intro db needed hu
    rw [allocLoop_cons]
    by_cases h0 : needed ≤ 0
    · rw [if_pos h0]
    · rw [if_neg h0]
      have hkey : ∀ l ∈ db.logs, l.userId = v → l.id ≠ log.id := by
        intro l hl hlv hc
        apply hv
        rw [← hlv]
        exact hu log (List.mem_cons_self log t) l hl hc
      by_cases h1 : log.hours ≤ needed
      · rw [if_pos h1]
        have hupd : logsOf (logUpdateRmpId db log.id rid) v = logsOf db v :=
          logsOf_map_keyed db.logs v _ log.id (fun _ => rfl) hkey
        rw [ih _ _ ?_, hupd]
        intro lg hlg l' hl' hc
        obtain ⟨pre, hpre, hid, huid⟩ :=
          map_update_preserves (fun l => { l with rmpId := some rid }) log.id
            (fun _ => rfl) (fun _ => rfl) hl'
        rw [huid]
        refine hu lg (List.mem_cons_of_mem log hlg) pre hpre ?_
        rw [← hid]
        exact hc
      · rw [if_neg h1]
        have hupd : logsOf (logUpdateHoursRmp db log.id needed rid) v = logsOf db v :=
          logsOf_map_keyed db.logs v _ log.id (fun _ => rfl) hkey
        have hcr : logsOf (logCreate (logUpdateHoursRmp db log.id needed rid) u
            (cleanNum (log.hours - needed)) log.start log.«end» log.note) v
            = logsOf (logUpdateHoursRmp db log.id needed rid) v := by
          unfold logsOf logCreate
          exact logsOf_append_new _ v _ (fun hc => hv hc.symm)
        rw [ih _ _ ?_, hcr, hupd]
        intro lg hlg l' hl' hc
        rcases List.mem_append.1 hl' with hl2 | hl2
        · obtain ⟨pre, hpre, hid, huid⟩ :=
            map_update_preserves (fun l => { l with hours := needed, rmpId := some rid })
              log.id (fun _ => rfl) (fun _ => rfl) hl2
          rw [huid]
          refine hu lg (List.mem_cons_of_mem log hlg) pre hpre ?_
          rw [← hid]
          exact hc
        · rw [List.mem_singleton.1 hl2]

/-! ### The consolidation scan only touches the scanned user's rows -/

theorem applyMergeFuel_nil (db : DB) (fuel : ℕ) :
    applyMergeFuel db fuel [] = db := by
  cases fuel <;> rfl

theorem applyMergeFuel_single (db : DB) (fuel : ℕ) (a : Log) :
    applyMergeFuel db fuel [a] = db := by
  cases fuel <;> rfl

theorem applyMergeFuel_zero (db : DB) (list : List Log) :
    applyMergeFuel db 0 list = db := by
  cases list with
  | nil => rfl
  | cons a t => cases t <;> rfl

theorem applyMergeFuel_cons (db : DB) (fuel : ℕ) (a b : Log) (rest : List Log) :
    applyMergeFuel db (fuel + 1) (a :: b :: rest) =
      if a.start = b.start ∧ a.«end» = b.«end» then
        applyMergeFuel
          (logDeleteById (logUpdateHours db a.id (cleanNum (a.hours + b.hours))) b.id)
          fuel (a :: rest)
      else applyMergeFuel db fuel (b :: rest) := rfl

theorem applyMergeFuel_rmps :
    ∀ (fuel : ℕ) (list : List Log) (db : DB),
    (applyMergeFuel db fuel list).rmps = db.rmps := by
  intro fuel
  induction fuel with
  | zero => intro list db; rw [applyMergeFuel_zero]
  | succ n ih =>
    intro list db
    match list with
    | [] => rw [applyMergeFuel_nil]
    | [a] => rw [applyMergeFuel_single]
    | a :: b :: rest =>
      rw [applyMergeFuel_cons]
      by_cases h : a.start = b.start ∧ a.«end» = b.«end»
      · rw [if_pos h, ih, logDeleteById_rmps, logUpdateHours_rmps]
      · rw [if_neg h, ih]

theorem applyMergeFuel_logsOf (u v : ℕ) (hv : v ≠ u) :
    ∀ (fuel : ℕ) (list : List Log) (db : DB),
    (∀ lg ∈ list, ∀ l' ∈ db.logs, l'.id = lg.id → l'.userId = u) →
    logsOf (applyMergeFuel db fuel list) v = logsOf db v := by
  intro fuel
  induction fuel with
  | zero => intro list db _; rw [applyMergeFuel_zero]
  | succ n ih =>
    intro list db hu
    match list with
    | [] => rw [applyMergeFuel_nil]
    | [a] => rw [applyMergeFuel_single]
    | a :: b :: rest =>
      rw [applyMergeFuel_cons]
      by_cases h : a.start = b.start ∧ a.«end» = b.«end»
      · rw [if_pos h]
        have hkeyA : ∀ l ∈ db.logs, l.userId = v → l.id ≠ a.id := by
          intro l hl hlv hc
          apply hv
          rw [← hlv]
          exact hu a (List.mem_cons_self a (b :: rest)) l hl hc
        have hupd : logsOf (logUpdateHours db a.id (cleanNum (a.hours + b.hours))) v
            = logsOf db v :=
          logsOf_map_keyed db.logs v _ a.id (fun _ => rfl) hkeyA
        have hdel : logsOf
            (logDeleteById (logUpdateHours db a.id (cleanNum (a.hours + b.hours))) b.id) v
            = logsOf (logUpdateHours db a.id (cleanNum (a.hours + b.hours))) v := by
          unfold logsOf logDeleteById
          refine logsOf_filter_keyed _ v _ ?_
          intro l hl hlv
          obtain ⟨pre, hpre, hid, huid⟩ :=
            map_update_preserves (fun l => { l with hours := cleanNum (a.hours + b.hours) })
              a.id (fun _ => rfl) (fun _ => rfl) hl
          have hne : l.id ≠ b.id := by
            intro hc
            apply hv
            rw [← hlv, huid]
            refine hu b (List.mem_cons_of_mem a (List.mem_cons_self b rest)) pre hpre ?_
            rw [← hid]
            exact hc
          simp [hne]
        rw [ih _ _ ?_, hdel, hupd]
        intro lg hlg l' hl' hc
        have hl2 := List.mem_of_mem_filter hl'
        obtain ⟨pre, hpre, hid, huid⟩ :=
          map_update_preserves (fun l => { l with hours := cleanNum (a.hours + b.hours) })
            a.id (fun _ => rfl) (fun _ => rfl) hl2
        rw [huid]
        have hlg2 : lg ∈ a :: b :: rest := by
          rcases List.mem_cons.1 hlg with h2 | h2
          · rw [h2]; exact List.mem_cons_self a (b :: rest)
          · exact List.mem_cons_of_mem a (List.mem_cons_of_mem b h2)
        refine hu lg hlg2 pre hpre ?_
        rw [← hid]
        exact hc
      · rw [if_neg h]
        refine ih _ _ ?_
        intro lg hlg l' hl' hc
        exact hu lg (List.mem_cons_of_mem a hlg) l' hl' hc

theorem addLog_err (db : DB) (u : ℕ) (body : TimesBody) (e : String)
    (hg : getTimes body = .error e) : addLog db u body = .error e := by
  simp only [addLog]
  rw [hg]

theorem submitUnit_of_ge {db : DB} {u : ℕ} {fd : ℤ}
    (hcond : 3 ≤ (sortByStart (unbundledOf db u)).foldl (fun s l => s + l.hours) (0 : ℚ)) :
    submitUnit db u fd
      = allocLoop
          { db with
            rmps := db.rmps ++ [⟨db.nextId, u, fd, RmpStatus.submitted, submitNotes db u⟩],
            nextId := db.nextId + 1 }
          db.nextId u 3 (sortByStart (unbundledOf db u)) := by
  simp only [submitUnit, submitNotes]
  rw [if_pos hcond]

theorem submitUnit_of_not_ge {db : DB} {u : ℕ} {fd : ℤ}
    (hcond : ¬ 3 ≤ (sortByStart (unbundledOf db u)).foldl (fun s l => s + l.hours) (0 : ℚ)) :
    submitUnit db u fd = db := by
  simp only [submitUnit]
  rw [if_neg hcond]

theorem map_ids_of_preserve {ls : List Log} (f : Log → Log)
    (hf : ∀ l, (f l).id = l.id) :
    (ls.map f).map Log.id = ls.map Log.id := by
  rw [List.map_map]
  exact List.map_congr_left (fun a _ => hf a)

/-- C9: with distinct users `a ≠ b`, well-formed unique ids, and ownership
consistency between logs and bundles, every operation issued by user `b`
(add, update, delete, submit, toggle status, delete bundle) leaves all of user
`a`'s logs and bundles unchanged, even when handed an id owned by `a`. -/
theorem ownership_isolation (db : DB) (a b : ℕ) (hab : a ≠ b)
    (hnd : (db.logs.map Log.id).Nodup) (hrnd : (db.rmps.map Rmp.id).Nodup)
    (hcons : ∀ l ∈ db.logs, ∀ r ∈ db.rmps, l.rmpId = some r.id → l.userId = r.userId) :
    (∀ body db2, addLog db b body = .ok db2 →
        logsOf db2 a = logsOf db a ∧ db2.rmps = db.rmps)
    ∧ (∀ i body db2 c, updateLog db b i body = .ok (db2, c) →
        logsOf db2 a = logsOf db a ∧ db2.rmps = db.rmps)
    ∧ (∀ i, logsOf (deleteLog db b i).1 a = logsOf db a
        ∧ (deleteLog db b i).1.rmps = db.rmps)
    ∧ (∀ fd, logsOf (submitUnit db b fd) a = logsOf db a
        ∧ rmpsOf (submitUnit db b fd) a = rmpsOf db a)
    ∧ (∀ i, (togglePaid db b i).logs = db.logs
        ∧ rmpsOf (togglePaid db b i) a = rmpsOf db a)
    ∧ (∀ i, logsOf (rmpDelete db b i) a = logsOf db a
        ∧ rmpsOf (rmpDelete db b i) a = rmpsOf db a) := by
  have hba : ¬ (b = a) := fun hc => hab hc.symm
  refine ⟨?_, ?_, ?_, ?_, ?_, ?_⟩
  · -- addLog
    intro body db2 h
    rcases hgt : getTimes body with e | d
    · rw [addLog_err db b body e hgt] at h
      exact Except.noConfusion h
    · rw [addLog_ok db b body d hgt] at h
      injection h with h1
      cases h1
      refine ⟨?_, rfl⟩
      unfold logsOf
      exact logsOf_append_new db.logs a _ hba
  · -- updateLog
    intro i body db2 c h
    rcases hgt : getTimes body with e | d
    · rw [updateLog_err db b i body e hgt] at h
      exact Except.noConfusion h
    · rw [updateLog_ok db b i body d hgt] at h
      injection h with h1
      injection h1 with h1 h2
      cases h1
      refine ⟨?_, rfl⟩
      unfold logsOf
      refine filter_map_invar _ _ _ (fun l _ => ?_) (fun l _ hp => ?_)
      · by_cases hc : l.id = i ∧ l.userId = b ∧ l.rmpId = none
        · simp [hc]
        · simp [if_neg hc]
      · refine if_neg (fun hc => ?_)
        exact hba (by rw [← hc.2.1, of_decide_eq_true hp])
  · -- deleteLog
    intro i
    refine ⟨?_, rfl⟩
    show ((db.logs.filter (fun l =>
        decide (¬ (l.id = i ∧ l.userId = b ∧ l.rmpId = none)))).filter
          (fun l => decide (l.userId = a)))
      = db.logs.filter (fun l => decide (l.userId = a))
    refine filter_filter_of_imp _ _ _ (fun l _ hp => ?_)
    have hla : l.userId = a := of_decide_eq_true hp
    simp only [decide_eq_true_eq]
    intro hc
    exact hba (by rw [← hc.2.1, hla])
  · -- submitUnit
    intro fd
    by_cases hcond : 3 ≤ (sortByStart (unbundledOf db b)).foldl
        (fun s l => s + l.hours) (0 : ℚ)
    · rw [submitUnit_of_ge hcond]
      have hu : ∀ lg ∈ sortByStart (unbundledOf db b),
          ∀ l' ∈ db.logs, l'.id = lg.id → l'.userId = b := by
        intro lg hlg l' hl' hc
        obtain ⟨hlg1, hlg2, _⟩ := mem_earned hlg
        rw [eq_of_nodup_ids hnd hl' hlg1 hc]
        exact hlg2
      constructor
      · have h2 := allocLoop_logsOf db.nextId b a hab (sortByStart (unbundledOf db b))
          { db with
            rmps := db.rmps ++ [⟨db.nextId, b, fd, RmpStatus.submitted, submitNotes db b⟩],
            nextId := db.nextId + 1 } 3 hu
        rw [h2]
        rfl
      · unfold rmpsOf
        rw [allocLoop_rmps]
        show ((db.rmps ++ [(⟨db.nextId, b, fd, RmpStatus.submitted, submitNotes db b⟩ : Rmp)]).filter
            (fun r => decide (r.userId = a)))
          = db.rmps.filter (fun r => decide (r.userId = a))
        rw [List.filter_append]
        simp [hba]
    · constructor <;> rw [submitUnit_of_not_ge hcond]
  · -- togglePaid
    intro i
    refine ⟨togglePaid_logs db b i, ?_⟩
    rcases hfind : db.rmps.find? (fun r => decide (r.id = i)) with _ | rmp
    · have heq : togglePaid db b i = db := by
        simp only [togglePaid, hfind]
      rw [heq]
    · by_cases hub : rmp.userId ≠ b
      · have heq : togglePaid db b i = db := by
          simp only [togglePaid, hfind]
          rw [if_pos hub]
        rw [heq]
      · have heq : togglePaid db b i
            = { db with rmps := db.rmps.map (fun r =>
                if r.id = rmp.id then
                  { r with status := if rmp.status = .paid then .submitted else .paid }
                else r) } := by
          simp only [togglePaid, hfind]
          rw [if_neg hub]
        rw [heq]
        push_neg at hub
        obtain ⟨hrm, _⟩ := mem_of_find?_rmp hfind
        unfold rmpsOf
        refine filter_map_invar _ _ _ (fun r _ => ?_) (fun r hr hp => ?_)
        · by_cases hc : r.id = rmp.id
          · simp [hc]
          · simp [hc]
        · refine if_neg (fun hc => ?_)
          have hre : r = rmp := eq_of_nodup_key Rmp.id hrnd hr hrm hc
          exact hba (by rw [← hub, ← hre, of_decide_eq_true hp])
  · -- rmpDelete
    intro i
    rcases hfind : db.rmps.find? (fun r => decide (r.id = i)) with _ | rmp
    · have heq : rmpDelete db b i = db := by
        simp only [rmpDelete, hfind]
      rw [heq]
      exact ⟨rfl, rfl⟩
    · by_cases hub : rmp.userId ≠ b
      · have heq : rmpDelete db b i = db := by
          simp only [rmpDelete, hfind]
          rw [if_pos hub]
        rw [heq]
        exact ⟨rfl, rfl⟩
      · have heq : rmpDelete db b i
            = applyMergeFuel
                (setNullRmp { db with rmps := db.rmps.filter (fun r => decide (r.id ≠ i)) } i)
                (sortByStart (unbundledOf
                  (setNullRmp { db with rmps := db.rmps.filter (fun r => decide (r.id ≠ i)) } i)
                  b)).length
                (sortByStart (unbundledOf
                  (setNullRmp { db with rmps := db.rmps.filter (fun r => decide (r.id ≠ i)) } i)
                  b)) := by
          simp only [rmpDelete, hfind]
          rw [if_neg hub]
        rw [heq]
        push_neg at hub
        obtain ⟨hrm, hrid⟩ := mem_of_find?_rmp hfind
        set db1 : DB := setNullRmp
          { db with rmps := db.rmps.filter (fun r => decide (r.id ≠ i)) } i with hdb1
        have hsetnull : ∀ l ∈ db.logs, l.userId = a → ¬ l.rmpId = some i := by
          intro l hl hla hc
          have h3 : l.userId = rmp.userId := by
            refine hcons l hl rmp hrm ?_
            rw [hc, hrid]
          exact hab (by rw [← hla, h3, hub])
        have hlogs1 : logsOf db1 a = logsOf db a := by
          rw [hdb1]
          unfold logsOf setNullRmp
          refine filter_map_invar _ _ _ (fun l _ => ?_) (fun l hl hp => ?_)
          · by_cases hc : l.rmpId = some i
            · simp [hc]
            · simp [hc]
          · exact if_neg (hsetnull l hl (of_decide_eq_true hp))
        have hnd1 : (db1.logs.map Log.id).Nodup := by
          rw [hdb1]
          show ((db.logs.map fun l =>
            if l.rmpId = some i then { l with rmpId := none } else l).map Log.id).Nodup
          rw [map_ids_of_preserve]
          · exact hnd
          · intro l
            by_cases hc : l.rmpId = some i
            · rw [if_pos hc]
            · rw [if_neg hc]
        have hu : ∀ lg ∈ sortByStart (unbundledOf db1 b),
            ∀ l' ∈ db1.logs, l'.id = lg.id → l'.userId = b := by
          intro lg hlg l' hl' hc
          obtain ⟨hlg1, hlg2, _⟩ := mem_earned hlg
          rw [eq_of_nodup_ids hnd1 hl' hlg1 hc]
          exact hlg2
        constructor
        · rw [applyMergeFuel_logsOf b a hab
            (sortByStart (unbundledOf db1 b)).length (sortByStart (unbundledOf db1 b))
            db1 hu, hlogs1]
        · unfold rmpsOf
          rw [applyMergeFuel_rmps]
          show ((db.rmps.filter (fun r => decide (r.id ≠ i))).filter
              (fun r => decide (r.userId = a)))
            = db.rmps.filter (fun r => decide (r.userId = a))
          refine filter_filter_of_imp _ _ _ (fun r hr hp => ?_)
          simp only [decide_eq_true_eq]
          intro hc
          have hre : r = rmp := eq_of_nodup_key Rmp.id hrnd hr hrm (by rw [hc, hrid])
          exact hab (by rw [← of_decide_eq_true hp, hre, hub])

/-- Witness for C9: user 2 operating on `dbPair` leaves user 1's rows alone. -/
theorem ownership_isolation_witness :
    ((1 : ℕ) ≠ 2 ∧ (dbPair.logs.map Log.id).Nodup ∧ (dbPair.rmps.map Rmp.id).Nodup
      ∧ (∀ l ∈ dbPair.logs, ∀ r ∈ dbPair.rmps, l.rmpId = some r.id → l.userId = r.userId))
    ∧ (∀ i, logsOf (rmpDelete dbPair 2 i) 1 = logsOf dbPair 1
        ∧ rmpsOf (rmpDelete dbPair 2 i) 1 = rmpsOf dbPair 1) :=
  ⟨⟨by decide, by decide, by decide, by decide⟩,
    (ownership_isolation dbPair 1 2 (by decide) (by decide) (by decide)
      (by decide)).2.2.2.2.2⟩

/-! ### Every write path stores non-negative 2-decimal hours -/

theorem clean_twentyfour : Clean 24 :=
  (clean_iff _).mpr ⟨2400, by norm_num⟩

theorem getTimes_timed (body : TimesBody) (st et : ℕ × ℕ)
    (hm : body.manualHours = none) (hst : body.startTime = some st)
    (het : body.endTime = some et) :
    getTimes body
      = if ¬ (isValidTimeHM st ∧ isValidTimeHM et) then
          Except.error "Invalid time format (must be HH:MM)"
        else if cleanNum ((((if timeMs body.workDate et < timeMs body.workDate st then
                timeMs body.workDate et + 86400000
              else timeMs body.workDate et) - timeMs body.workDate st : ℤ) : ℚ)
              / 3600000) < 0
            ∨ cleanNum ((((if timeMs body.workDate et < timeMs body.workDate st then
                timeMs body.workDate et + 86400000
              else timeMs body.workDate et) - timeMs body.workDate st : ℤ) : ℚ)
              / 3600000) > 24 then
          Except.error "Invalid time range (must be between 0 and 24 hours)"
        else
          Except.ok ⟨cleanNum ((((if timeMs body.workDate et < timeMs body.workDate st then
                timeMs body.workDate et + 86400000
              else timeMs body.workDate et) - timeMs body.workDate st : ℤ) : ℚ)
              / 3600000),
            timeMs body.workDate st,
            (if timeMs body.workDate et < timeMs body.workDate st then
                timeMs body.workDate et + 86400000
              else timeMs body.workDate et),
            processNote body.note⟩ := by
  simp only [getTimes]
  rw [hm, hst, het]

theorem getTimes_hours_ok (body : TimesBody) (d : TimesData)
    (h : getTimes body = .ok d) :
    0 ≤ d.hours ∧ Clean d.hours ∧ d.hours ≤ 24 := by
  rcases hm : body.manualHours with _ | mh
  · rcases hst : body.startTime with _ | st
    · have : getTimes body = .error "Both start and end times are required" := by
        simp only [getTimes]
        rw [hm, hst]
      rw [this] at h
      exact Except.noConfusion h
    rcases het : body.endTime with _ | et
    · have : getTimes body = .error "Both start and end times are required" := by
        simp only [getTimes]
        rw [hm, hst, het]
      rw [this] at h
      exact Except.noConfusion h
    rw [getTimes_timed body st et hm hst het] at h
    by_cases hv : ¬ (isValidTimeHM st ∧ isValidTimeHM et)
    · rw [if_pos hv] at h
      exact Except.noConfusion h
    rw [if_neg hv] at h
    by_cases hr : cleanNum ((((if timeMs body.workDate et < timeMs body.workDate st then
            timeMs body.workDate et + 86400000
          else timeMs body.workDate et) - timeMs body.workDate st : ℤ) : ℚ)
          / 3600000) < 0
        ∨ cleanNum ((((if timeMs body.workDate et < timeMs body.workDate st then
            timeMs body.workDate et + 86400000
          else timeMs body.workDate et) - timeMs body.workDate st : ℤ) : ℚ)
          / 3600000) > 24
    · rw [if_pos hr] at h
      exact Except.noConfusion h
    · rw [if_neg hr] at h
      push_neg at hr
      injection h with h
      rw [← h]
      exact ⟨hr.1, clean_cleanNum _, hr.2⟩
  · rw [getTimes_manual body mh hm] at h
    by_cases hv : ¬ (0 ≤ mh ∧ mh ≤ 24)
    · rw [if_pos hv] at h
      exact Except.noConfusion h
    · rw [if_neg hv] at h
      push_neg at hv
      injection h with h
      rw [← h]
      refine ⟨cleanNum_nonneg hv.1, clean_cleanNum _, ?_⟩
      calc cleanNum mh ≤ cleanNum 24 := cleanNum_mono hv.2
        _ = 24 := clean_twentyfour

theorem hours_prop_map24 {ls : List Log} (f : Log → Log)
    (hf : ∀ l ∈ ls, (f l).hours = l.hours
      ∨ (0 ≤ (f l).hours ∧ Clean (f l).hours ∧ (f l).hours ≤ 24))
    (h : ∀ l ∈ ls, 0 ≤ l.hours ∧ Clean l.hours ∧ l.hours ≤ 24) :
    ∀ l ∈ ls.map f, 0 ≤ l.hours ∧ Clean l.hours ∧ l.hours ≤ 24 := by
  intro l hl
  obtain ⟨pre, hpre, hfl⟩ := List.mem_map.1 hl
  rcases hf pre hpre with h1 | h1
  · rw [← hfl, h1]
    exact h pre hpre
  · rw [← hfl]
    exact h1

theorem hours_prop_map2 {ls : List Log} (f : Log → Log)
    (hf : ∀ l ∈ ls, (f l).hours = l.hours
      ∨ (0 ≤ (f l).hours ∧ Clean (f l).hours))
    (h : ∀ l ∈ ls, 0 ≤ l.hours ∧ Clean l.hours) :
    ∀ l ∈ ls.map f, 0 ≤ l.hours ∧ Clean l.hours := by
  intro l hl
  obtain ⟨pre, hpre, hfl⟩ := List.mem_map.1 hl
  rcases hf pre hpre with h1 | h1
  · rw [← hfl, h1]
    exact h pre hpre
  · rw [← hfl]
    exact h1

theorem allocLoop_hoursOk (rid u : ℕ) :
    ∀ (rest : List Log) (db : DB) (needed : ℚ),
    (∀ l ∈ db.logs, 0 ≤ l.hours ∧ Clean l.hours ∧ l.hours ≤ 24) →
    (∀ l ∈ rest, 0 ≤ l.hours ∧ Clean l.hours ∧ l.hours ≤ 24) →
    0 ≤ needed → needed ≤ 3 → Clean needed →
    ∀ l ∈ (allocLoop db rid u needed rest).logs,
      0 ≤ l.hours ∧ Clean l.hours ∧ l.hours ≤ 24 := by
  intro rest
  induction rest with
  | nil => intro db needed hdb _ _ _ _; exact hdb
  | cons log t ih =>
    intro db needed hdb hrest hn0 hn3 hncl
    rw [allocLoop_cons]
    by_cases h0 : needed ≤ 0
    · rw [if_pos h0]; exact hdb
    · rw [if_neg h0]
      have hlog := hrest log (List.mem_cons_self log t)
      have hrest2 : ∀ l ∈ t, 0 ≤ l.hours ∧ Clean l.hours ∧ l.hours ≤ 24 :=
        fun l hl => hrest l (List.mem_cons_of_mem log hl)
      by_cases h1 : log.hours ≤ needed
      · rw [if_pos h1]
        refine ih _ _ ?_ hrest2 ?_ ?_ (clean_cleanNum _)
        · refine hours_prop_map24 _ (fun l _ => Or.inl ?_) hdb
          by_cases hc : l.id = log.id
          · rw [if_pos hc]
          · rw [if_neg hc]
        · have := cleanNum_mono (by linarith : (0 : ℚ) ≤ needed - log.hours)
          rwa [cleanNum_zero] at this
        · calc cleanNum (needed - log.hours)
              ≤ cleanNum needed := cleanNum_mono (by linarith)
            _ = needed := hncl
            _ ≤ 3 := hn3
      · rw [if_neg h1]
        refine ih _ _ ?_ hrest2 (le_refl 0) (by norm_num) clean_zero
        intro l hl
        rcases List.mem_append.1 hl with hl2 | hl2
        · refine hours_prop_map24 _ (fun l2 _ => ?_) hdb l hl2
          by_cases hc : l2.id = log.id
          · rw [if_pos hc]
            right
            exact ⟨hn0, hncl, by linarith⟩
          · rw [if_neg hc]
            left
            rfl
        · rw [List.mem_singleton.1 hl2]
          push_neg at h1
          refine ⟨?_, clean_cleanNum _, ?_⟩
          · have := cleanNum_mono (by linarith : (0 : ℚ) ≤ log.hours - needed)
            rwa [cleanNum_zero] at this
          · calc cleanNum (log.hours - needed)
                ≤ cleanNum log.hours := cleanNum_mono (by linarith)
              _ = log.hours := hlog.2.1
              _ ≤ 24 := hlog.2.2

theorem applyMergeFuel_hoursOk :
    ∀ (fuel : ℕ) (list : List Log) (db : DB),
    (∀ l ∈ db.logs, 0 ≤ l.hours ∧ Clean l.hours) →
    (∀ l ∈ list, 0 ≤ l.hours) →
    ∀ l ∈ (applyMergeFuel db fuel list).logs, 0 ≤ l.hours ∧ Clean l.hours := by
  intro fuel
  induction fuel with
  | zero => intro list db hdb _; rw [applyMergeFuel_zero]; exact hdb
  | succ n ih =>
    intro list db hdb hlist
    match list with
    | [] => rw [applyMergeFuel_nil]; exact hdb
    | [a] => rw [applyMergeFuel_single]; exact hdb
    | a :: b :: rest =>
      rw [applyMergeFuel_cons]
      by_cases h : a.start = b.start ∧ a.«end» = b.«end»
      · rw [if_pos h]
        refine ih _ _ ?_ ?_
        · intro l hl
          have hl2 := List.mem_of_mem_filter hl
          refine hours_prop_map2 _ (fun l2 _ => ?_) hdb l hl2
          by_cases hc : l2.id = a.id
          · rw [if_pos hc]
            right
            have ha := hlist a (List.mem_cons_self a (b :: rest))
            have hb := hlist b (List.mem_cons_of_mem a (List.mem_cons_self b rest))
            refine ⟨?_, clean_cleanNum _⟩
            have := cleanNum_mono (by linarith : (0 : ℚ) ≤ a.hours + b.hours)
            rwa [cleanNum_zero] at this
          · rw [if_neg hc]
            left
            rfl
        · intro l hl
          rcases List.mem_cons.1 hl with h2 | h2
          · rw [h2]
            exact hlist a (List.mem_cons_self a (b :: rest))
          · exact hlist l (List.mem_cons_of_mem a (List.mem_cons_of_mem b h2))
      · rw [if_neg h]
        exact ih _ _ hdb (fun l hl => hlist l (List.mem_cons_of_mem a hl))

/-- C6 (amended): add, update, delete, and bundle submission preserve the full
hours constraint (non-negative, 2-decimal, at most 24); the status toggle does
not touch the log table; bundle deletion preserves non-negativity and
2-decimal rounding, but not the 24-hour cap. -/
theorem hours_field_invariant (db : DB) (u : ℕ) (fd : ℤ) (i : ℕ)
    (body : TimesBody) (h24 : HoursOk24 db) :
    (∀ db2, addLog db u body = .ok db2 → HoursOk24 db2)
    ∧ (∀ db2 c, updateLog db u i body = .ok (db2, c) → HoursOk24 db2)
    ∧ HoursOk24 (deleteLog db u i).1
    ∧ HoursOk24 (submitUnit db u fd)
    ∧ (togglePaid db u i).logs = db.logs
    ∧ HoursOk (rmpDelete db u i) := by
  refine ⟨?_, ?_, ?_, ?_, togglePaid_logs db u i, ?_⟩
  · intro db2 h
    rcases hgt : getTimes body with e | d
    · rw [addLog_err db u body e hgt] at h
      exact Except.noConfusion h
    · rw [addLog_ok db u body d hgt] at h
      injection h with h1
      cases h1
      intro l hl
      rcases List.mem_append.1 hl with hl2 | hl2
      · exact h24 l hl2
      · rw [List.mem_singleton.1 hl2]
        exact getTimes_hours_ok body d hgt
  · intro db2 c h
    rcases hgt : getTimes body with e | d
    · rw [updateLog_err db u i body e hgt] at h
      exact Except.noConfusion h
    · rw [updateLog_ok db u i body d hgt] at h
      injection h with h1
      injection h1 with h1 _
      cases h1
      refine hours_prop_map24 _ (fun l _ => ?_) h24
      by_cases hc : l.id = i ∧ l.userId = u ∧ l.rmpId = none
      · rw [if_pos hc]
        right
        exact getTimes_hours_ok body d hgt
      · rw [if_neg hc]
        left
        rfl
  · intro l hl
    exact h24 l (List.mem_of_mem_filter hl)
  · by_cases hcond : 3 ≤ (sortByStart (unbundledOf db u)).foldl
        (fun s l => s + l.hours) (0 : ℚ)
    · rw [submitUnit_of_ge hcond]
      refine allocLoop_hoursOk db.nextId u _ _ 3 h24 ?_ (by norm_num) (le_refl 3) clean_three
      intro l hl
      exact h24 l (mem_earned hl).1
    · rw [submitUnit_of_not_ge hcond]
      exact h24
  · rcases hfind : db.rmps.find? (fun r => decide (r.id = i)) with _ | rmp
    · have heq : rmpDelete db u i = db := by
        simp only [rmpDelete, hfind]
      rw [heq]
      exact fun l hl => ⟨(h24 l hl).1, (h24 l hl).2.1⟩
    · by_cases hub : rmp.userId ≠ u
      · have heq : rmpDelete db u i = db := by
          simp only [rmpDelete, hfind]
          rw [if_pos hub]
        rw [heq]
        exact fun l hl => ⟨(h24 l hl).1, (h24 l hl).2.1⟩
      · have heq : rmpDelete db u i
            = applyMergeFuel
                (setNullRmp { db with rmps := db.rmps.filter (fun r => decide (r.id ≠ i)) } i)
                (sortByStart (unbundledOf (setNullRmp
                  { db with rmps := db.rmps.filter (fun r => decide (r.id ≠ i)) } i) u)).length
                (sortByStart (unbundledOf (setNullRmp
                  { db with rmps := db.rmps.filter (fun r => decide (r.id ≠ i)) } i) u)) := by
          simp only [rmpDelete, hfind]
          rw [if_neg hub]
        rw [heq]
        set db1 : DB := setNullRmp
          { db with rmps := db.rmps.filter (fun r => decide (r.id ≠ i)) } i with hdb1
        have hdb1ok : ∀ l ∈ db1.logs, 0 ≤ l.hours ∧ Clean l.hours := by
          rw [hdb1]
          show ∀ l ∈ db.logs.map (fun l =>
            if l.rmpId = some i then { l with rmpId := none } else l), _
          refine hours_prop_map2 _ (fun l _ => Or.inl ?_)
            (fun l hl => ⟨(h24 l hl).1, (h24 l hl).2.1⟩)
          by_cases hc : l.rmpId = some i
          · rw [if_pos hc]
          · rw [if_neg hc]
        refine applyMergeFuel_hoursOk _ _ _ hdb1ok ?_
        intro l hl
        exact (hdb1ok l (mem_earned hl).1).1

/-- Counterexample for C6 as stated: from a state satisfying the full
invariant (two 13-hour manual entries of one date plus a 3-hour entry),
submitting and then deleting a bundle merges the two 13-hour entries into a
single 26-hour log, violating the 24-hour cap. -/
theorem hours_cap_counterexample :
    HoursOk24 dbBig
    ∧ (rmpDelete (submitUnit dbBig 1 100) 1 3).logs.map Log.hours = [3, 26] :=
  ⟨by with_unfolding_all decide, by with_unfolding_all rfl⟩

/-- Witness for C6 (amended) at `dbBig`. -/
theorem hours_field_invariant_witness :
    HoursOk24 dbBig
    ∧ ((∀ db2, addLog dbBig 1 ⟨9, none, none, some 1, none⟩ = .ok db2 → HoursOk24 db2)
      ∧ (∀ db2 c, updateLog dbBig 1 0 ⟨9, none, none, some 1, none⟩ = .ok (db2, c) →
          HoursOk24 db2)
      ∧ HoursOk24 (deleteLog dbBig 1 0).1
      ∧ HoursOk24 (submitUnit dbBig 1 100)
      ∧ (togglePaid dbBig 1 0).logs = dbBig.logs
      ∧ HoursOk (rmpDelete dbBig 1 0)) :=
  ⟨by with_unfolding_all decide,
    hours_field_invariant dbBig 1 100 0 ⟨9, none, none, some 1, none⟩
      (by with_unfolding_all decide)⟩

/-! ### The notes pass and the allocation pass consume the same prefix -/

theorem consumed_zero : ∀ (t : List Log), consumed 0 t = [] := by
  intro t
  cases t with
  | nil => rfl
  | cons log rest =>
    rw [consumed_cons, if_pos (le_refl (0 : ℚ))]

theorem collectNotes_eq_consumed :
    ∀ (l : List Log) (needed : ℚ),
    collectNotes needed l = (consumed needed l).filterMap nonEmptyNote := by
  intro l
  induction l with
  | nil => intro needed; rfl
  | cons log t ih =>
    intro needed
    rw [collectNotes_cons, consumed_cons]
    by_cases h0 : needed ≤ 0
    · rw [if_pos h0, if_pos h0]
      rfl
    · rw [if_neg h0, if_neg h0, List.filterMap_cons]
      rcases hn : log.note with _ | n
      · simp [hn, nonEmptyNote, ih]
      · by_cases he : n = "" <;> simp [hn, nonEmptyNote, he, ih]

theorem exists_rid_update (ls : List Log) (i rid : ℕ) (g : Log → Log)
    (hgi : ∀ l, (g l).id = l.id) (hgr : ∀ l, (g l).rmpId = some rid)
    (hnd : (ls.map Log.id).Nodup) (l0 : Log) (h0 : l0 ∈ ls) (hi : l0.id = i)
    (hunb : l0.rmpId = none) (j : ℕ) :
    (∃ l ∈ ls.map (fun l => if l.id = i then g l else l), l.id = j ∧ l.rmpId = some rid)
      ↔ ((∃ l ∈ ls, l.id = j ∧ l.rmpId = some rid) ∨ j = i) := by
  constructor
  · rintro ⟨l, hl, hj, hr⟩
    obtain ⟨pre, hpre, hfl⟩ := List.mem_map.1 hl
    by_cases hc : pre.id = i
    · right
      rw [← hj, ← hfl, if_pos hc, hgi pre]
      exact hc
    · left
      rw [← hfl, if_neg hc] at hj hr
      exact ⟨pre, hpre, hj, hr⟩
  · rintro (⟨l, hl, hj, hr⟩ | hj)
    · have hne : l.id ≠ i := by
        intro hc
        have : l = l0 := eq_of_nodup_ids hnd hl h0 (hc.trans hi.symm)
        rw [this, hunb] at hr
        exact Option.noConfusion hr
      exact ⟨l, mem_map_update_of_ne g hl hne, hj, hr⟩
    · refine ⟨g l0, ?_, ?_, hgr l0⟩
      · have hb : (fun l => if l.id = i then g l else l) l0 = g l0 := by
          show (if l0.id = i then g l0 else l0) = g l0
          rw [if_pos hi]
        rw [← hb]
        exact List.mem_map_of_mem _ h0
      · rw [hgi l0, hi, hj]

theorem exists_rid_append (ls : List Log) (x : Log) (rid : ℕ) (j : ℕ)
    (hx : x.rmpId = none) :
    (∃ l ∈ ls ++ [x], l.id = j ∧ l.rmpId = some rid)
      ↔ (∃ l ∈ ls, l.id = j ∧ l.rmpId = some rid) := by
  constructor
  · rintro ⟨l, hl, hj, hr⟩
    rcases List.mem_append.1 hl with h2 | h2
    · exact ⟨l, h2, hj, hr⟩
    · rw [List.mem_singleton.1 h2, hx] at hr
      exact Option.noConfusion hr
  · rintro ⟨l, hl, hj, hr⟩
    exact ⟨l, List.mem_append_left _ hl, hj, hr⟩

theorem allocLoop_nodup (rid u : ℕ) :
    ∀ (rest : List Log) (db : DB) (needed : ℚ),
    (db.logs.map Log.id).Nodup →
    (∀ l ∈ db.logs, l.id < db.nextId) →
    ((allocLoop db rid u needed rest).logs.map Log.id).Nodup
    ∧ (∀ l ∈ (allocLoop db rid u needed rest).logs,
        l.id < (allocLoop db rid u needed rest).nextId) := by
  intro rest
  induction rest with
  | nil => intro db needed hnd hlt; exact ⟨hnd, hlt⟩
  | cons log t ih =>
    intro db needed hnd hlt
    rw [allocLoop_cons]
    by_cases h0 : needed ≤ 0
    · rw [if_pos h0]; exact ⟨hnd, hlt⟩
    · rw [if_neg h0]
      by_cases h1 : log.hours ≤ needed
      · rw [if_pos h1]
        refine ih _ _ ?_ ?_
        · rw [logUpdateRmpId_map_id]
          exact hnd
        · intro l hl
          obtain ⟨pre, hpre, hid, _⟩ :=
            map_update_preserves (fun l => { l with rmpId := some rid }) log.id
              (fun _ => rfl) (fun _ => rfl) hl
          rw [hid]
          exact hlt pre hpre
      · rw [if_neg h1]
        refine ih _ _ ?_ ?_
        · show (((logUpdateHoursRmp db log.id needed rid).logs
              ++ [(⟨(logUpdateHoursRmp db log.id needed rid).nextId, u,
                cleanNum (log.hours - needed), log.start, log.«end», log.note, none⟩ : Log)]).map
                Log.id).Nodup
          rw [List.map_append, List.nodup_append]
          refine ⟨by rw [logUpdateHoursRmp_map_id]; exact hnd, by simp, ?_⟩
          intro x hx hy
          rw [List.map_cons, List.map_nil, List.mem_singleton] at hy
          rw [logUpdateHoursRmp_map_id] at hx
          obtain ⟨pre, hpre, hid⟩ := List.mem_map.1 hx
          rw [hy] at hid
          exact absurd hid (Nat.ne_of_lt (hlt pre hpre))
        · intro l hl
          rcases List.mem_append.1 hl with h2 | h2
          · obtain ⟨pre, hpre, hid, _⟩ :=
              map_update_preserves (fun l => { l with hours := needed, rmpId := some rid })
                log.id (fun _ => rfl) (fun _ => rfl) h2
            rw [logCreate_nextId, logUpdateHoursRmp_nextId, hid]
            exact Nat.lt_succ_of_lt (hlt pre hpre)
          · rw [List.mem_singleton.1 h2, logCreate_nextId, logUpdateHoursRmp_nextId]
            exact Nat.lt_succ_self _

theorem allocLoop_assigned (rid u : ℕ) :
    ∀ (rest : List Log) (db : DB) (needed : ℚ),
    (db.logs.map Log.id).Nodup →
    (∀ l ∈ rest, l ∈ db.logs) →
    (∀ l ∈ rest, l.rmpId = none) →
    (rest.map Log.id).Nodup →
    ∀ j : ℕ,
    ((∃ l ∈ (allocLoop db rid u needed rest).logs, l.id = j ∧ l.rmpId = some rid)
      ↔ ((∃ l ∈ db.logs, l.id = j ∧ l.rmpId = some rid)
          ∨ j ∈ (consumed needed rest).map Log.id)) := by
  intro rest
  induction rest with
  | nil =>
    intro db needed _ _ _ _ j
    rw [allocLoop_nil, consumed_nil]
    simp
  | cons log t ih =>
    intro db needed hnd hmem hunb hrnd j
    rw [List.map_cons, List.nodup_cons] at hrnd
    rw [allocLoop_cons, consumed_cons]
    by_cases h0 : needed ≤ 0
    · rw [if_pos h0, if_pos h0]
      simp
    · rw [if_neg h0, if_neg h0]
      have hlog := hmem log (List.mem_cons_self log t)
      have hlunb := hunb log (List.mem_cons_self log t)
      by_cases h1 : log.hours ≤ needed
      · rw [if_pos h1, if_pos h1]
        have hmem2 : ∀ l ∈ t, l ∈ (logUpdateRmpId db log.id rid).logs := by
          intro l hl
          have hne : l.id ≠ log.id := by
            intro hc
            exact hrnd.1 (hc ▸ List.mem_map_of_mem Log.id hl)
          exact mem_map_update_of_ne _ (hmem l (List.mem_cons_of_mem log hl)) hne
        have hnd2 : ((logUpdateRmpId db log.id rid).logs.map Log.id).Nodup := by
          rw [logUpdateRmpId_map_id]
          exact hnd
        rw [ih _ _ hnd2 hmem2 (fun l hl => hunb l (List.mem_cons_of_mem log hl)) hrnd.2 j]
        have hstep : (∃ l ∈ (logUpdateRmpId db log.id rid).logs, l.id = j ∧ l.rmpId = some rid)
            ↔ ((∃ l ∈ db.logs, l.id = j ∧ l.rmpId = some rid) ∨ j = log.id) :=
          exists_rid_update db.logs log.id rid (fun l => { l with rmpId := some rid })
            (fun _ => rfl) (fun _ => rfl) hnd log hlog rfl hlunb j
        rw [hstep, List.map_cons, List.mem_cons]
        exact or_assoc
      · rw [if_neg h1, if_neg h1]
        rw [allocLoop_of_nonpos _ (le_refl 0), consumed_zero, List.map_cons, List.map_nil]
        have hstep : (∃ l ∈ (logUpdateHoursRmp db log.id needed rid).logs,
              l.id = j ∧ l.rmpId = some rid)
            ↔ ((∃ l ∈ db.logs, l.id = j ∧ l.rmpId = some rid) ∨ j = log.id) :=
          exists_rid_update db.logs log.id rid
            (fun l => { l with hours := needed, rmpId := some rid })
            (fun _ => rfl) (fun _ => rfl) hnd log hlog rfl hlunb j
        have happ : (∃ l ∈ (logCreate (logUpdateHoursRmp db log.id needed rid) u
              (cleanNum (log.hours - needed)) log.start log.«end» log.note).logs,
              l.id = j ∧ l.rmpId = some rid)
            ↔ (∃ l ∈ (logUpdateHoursRmp db log.id needed rid).logs,
                l.id = j ∧ l.rmpId = some rid) :=
          exists_rid_append _ _ rid j rfl
        rw [happ, hstep]
        simp

theorem submitNotes_eq (db : DB) (u : ℕ) :
    submitNotes db u
      = (if ((consumed 3 (sortByStart (unbundledOf db u))).filterMap nonEmptyNote) = []
          then none
          else some (String.intercalate "\n"
            (((consumed 3 (sortByStart (unbundledOf db u))).filterMap nonEmptyNote).map
              (fun n => "• " ++ n)))) := by
  unfold submitNotes
  rw [collectNotes_eq_consumed]
  rcases (consumed 3 (sortByStart (unbundledOf db u))).filterMap nonEmptyNote with _ | ⟨x, xs⟩
  · simp
  · simp

/-- C7: the fetched list is in ascending `start` order, exactly one Rmp is
appended, its `notes` field is the newline-separated "• "-bulleted join of the
non-empty notes of the consumed prefix (absent when there are none), and a log
in the final state points at the new Rmp exactly when its id is one of the
consumed prefix's ids — the notes pass and the allocation pass agree on the
same set of entries. -/
theorem bundle_notes (db : DB) (u : ℕ) (fd : ℤ)
    (hwf : WF db) (htot : 3 ≤ unbundledSum db u) :
    (sortByStart (unbundledOf db u)).Sorted (fun x y : Log => x.start ≤ y.start)
    ∧ (∃ r : Rmp,
        (submitUnit db u fd).rmps = db.rmps ++ [r]
        ∧ r.notes = (if ((consumed 3 (sortByStart (unbundledOf db u))).filterMap
              nonEmptyNote) = []
            then none
            else some (String.intercalate "\n"
              (((consumed 3 (sortByStart (unbundledOf db u))).filterMap nonEmptyNote).map
                (fun n => "• " ++ n))))
        ∧ (∀ l ∈ (submitUnit db u fd).logs,
            (l.rmpId = some r.id
              ↔ l.id ∈ (consumed 3 (sortByStart (unbundledOf db u))).map Log.id))) := by
  obtain ⟨hidlt, hreflt, _, hnd, _⟩ := hwf
  have hcond : 3 ≤ (sortByStart (unbundledOf db u)).foldl (fun s l => s + l.hours) (0 : ℚ) := by
    rw [earned_foldl]
    exact htot
  refine ⟨sortByStart_sorted _, ⟨⟨db.nextId, u, fd, RmpStatus.submitted, submitNotes db u⟩,
    ?_, submitNotes_eq db u, ?_⟩⟩
  · rw [submitUnit_of_ge hcond, allocLoop_rmps]
  · rw [submitUnit_of_ge hcond]
    set db1 : DB := { db with
      rmps := db.rmps ++ [⟨db.nextId, u, fd, RmpStatus.submitted, submitNotes db u⟩],
      nextId := db.nextId + 1 } with hdb1
    have hmem : ∀ l ∈ sortByStart (unbundledOf db u), l ∈ db1.logs :=
      fun l hl => (mem_earned hl).1
    have hunb : ∀ l ∈ sortByStart (unbundledOf db u), l.rmpId = none :=
      fun l hl => (mem_earned hl).2.2
    have hrnd : ((sortByStart (unbundledOf db u)).map Log.id).Nodup :=
      earned_map_id_nodup hnd
    have hnd1 : (db1.logs.map Log.id).Nodup := hnd
    have hlt1 : ∀ l ∈ db1.logs, l.id < db1.nextId :=
      fun l hl => Nat.lt_succ_of_lt (hidlt l hl)
    have hiff := allocLoop_assigned db.nextId u (sortByStart (unbundledOf db u))
      db1 3 hnd1 hmem hunb hrnd
    have hnod := allocLoop_nodup db.nextId u (sortByStart (unbundledOf db u))
      db1 3 hnd1 hlt1
    intro l hl
    constructor
    · intro hr
      have h2 := (hiff l.id).1 ⟨l, hl, rfl, hr⟩
      rcases h2 with ⟨l2, hl2, _, hr2⟩ | h2
      · exfalso
        have := hreflt l2 hl2 db.nextId (by rw [hr2]; rfl)
        exact lt_irrefl _ this
      · exact h2
    · intro hid
      obtain ⟨l2, hl2, hjd, hr2⟩ := (hiff l.id).2 (Or.inr hid)
      have : l2 = l := eq_of_nodup_ids hnod.1 hl2 hl hjd
      rw [← this]
      exact hr2

/-- Witness for C7 at the single 5-hour noted entry. -/
theorem bundle_notes_witness :
    (WF dbSplit ∧ 3 ≤ unbundledSum dbSplit 1)
    ∧ ((sortByStart (unbundledOf dbSplit 1)).Sorted (fun x y : Log => x.start ≤ y.start)
      ∧ (∃ r : Rmp,
          (submitUnit dbSplit 1 100).rmps = dbSplit.rmps ++ [r]
          ∧ r.notes = (if ((consumed 3 (sortByStart (unbundledOf dbSplit 1))).filterMap
                nonEmptyNote) = []
              then none
              else some (String.intercalate "\n"
                (((consumed 3 (sortByStart (unbundledOf dbSplit 1))).filterMap
                    nonEmptyNote).map
                  (fun n => "• " ++ n))))
          ∧ (∀ l ∈ (submitUnit dbSplit 1 100).logs,
              (l.rmpId = some r.id
                ↔ l.id ∈ (consumed 3 (sortByStart (unbundledOf dbSplit 1))).map Log.id)))) :=
  ⟨⟨by with_unfolding_all decide, by with_unfolding_all decide⟩,
    bundle_notes dbSplit 1 100 (by with_unfolding_all decide) (by with_unfolding_all decide)⟩

end ThreeBells
